import Mathlib

/-!
# Instant-runoff election resolver (`cs50x/runoff_commented.c`)

A shallow embedding of the runoff program and proofs of its contracts.

Modelling conventions.

* The C globals `preferences`, `candidates`, `voter_count` and
  `candidate_count` become the fields of `State`; every C function becomes a
  function on `State` that returns the new state and/or the returned value.
* The global arrays are total maps from an index to a cell.  The program only
  touches cells whose index is below the corresponding counter, and the
  theorems say so through `valid_indices`.
* `int` is `Int`; C's `/` on `int` is `Int.tdiv` (truncation towards zero).
  The increment `votes++` of a 32-bit `int` is `wrap_int (votes + 1)`.  In the
  round loop the counters start at 0 and never exceed the number of ballots,
  so `tabulate` counts in exact arithmetic; `tabulate_wrapping` is the same
  function with the wrapping increment, for the contract of one call from
  arbitrary counters, and the two agree while no counter passes `INT_MAX`
  (`tabulate_wrapping_eq_tabulate`).
* `printf("%s\n", name)` appends `name` to a list of printed lines.
* A loop `for (int i = 0; i < n; i++) body` is `for_loop body n.toNat`; a loop
  that leaves at the first index satisfying a test (by `break` or `return`)
  is described by `first_index`.
* The body of `while (true)` in `main` is `round`, the loop is `round_loop`
  with a bound on the number of rounds; the stages of `main` before the loop
  are `main` (argument and voter-count checks) and `collect_ballots`.

The definitions of all programs come first, the theorems follow.
-/

namespace Runoff

/-! ## Loops -/

/-- Runs `body 0`, `body 1`, ..., `body (n - 1)` in this order:
`for (int i = 0; i < n; i++) body`. -/
def for_loop {σ : Type} (body : Nat → σ → σ) : Nat → σ → σ
  | 0, s => s
  | n + 1, s => body n (for_loop body n s)

/-- Scans `i, i + 1, ...` for at most `fuel` indices and returns the first one
at which `p` holds. -/
def first_index_from (p : Nat → Bool) : Nat → Nat → Option Nat
  | 0, _ => none
  | fuel + 1, i => if p i then some i else first_index_from p fuel (i + 1)

/-- The index at which `for (int i = 0; i < n; i++) if (p i) { ...; break; }`
leaves the loop, `none` when the loop runs to its end. -/
def first_index (p : Nat → Bool) (n : Nat) : Option Nat :=
  first_index_from p n 0

/-! ## Data model -/

/-- The C struct `candidate`. -/
structure candidate where
  name : String
  votes : Int
  eliminated : Bool
  deriving DecidableEq

/-- The global variables of the program. -/
structure State where
  /-- The array `preferences[i][j]`: roster index of the candidate voter `i` ranks `j`-th. -/
  preferences : Nat → Nat → Nat
  /-- The array `candidates[i]`. -/
  candidates : Nat → candidate
  voter_count : Int
  candidate_count : Int

/-- The assignment `candidates[i] = c`. -/
def State.set_candidate (s : State) (i : Nat) (c : candidate) : State :=
  { s with candidates := Function.update s.candidates i c }

/-- The assignment `preferences[voter][rank] = v`. -/
def State.set_preference (s : State) (voter rank v : Nat) : State :=
  { s with
    preferences :=
      Function.update s.preferences voter (Function.update (s.preferences voter) rank v) }

/-! ## The functions of `runoff_commented.c` -/

/-- The function `bool vote(int voter, int rank, string name)`: the returned
flag and the state after the call. -/
def vote (s : State) (voter rank : Nat) (name : String) : Bool × State :=
  match first_index (fun i => name == (s.candidates i).name) s.candidate_count.toNat with
  | some i => (true, s.set_preference voter rank i)
  | none => (false, s)

/-- The body of the outer loop of `tabulate` for voter `i`: the inner loop
leaves at the first rank whose candidate is not eliminated, after
`candidates[candidate_index].votes++`.  The increment is that of the integers,
which is the increment of a C `int` as long as the counter is below `INT_MAX`;
`tabulate_ballot_wrapping` has the increment of a 32-bit `int`. -/
def tabulate_ballot (i : Nat) (s : State) : State :=
  match first_index (fun j => !(s.candidates (s.preferences i j)).eliminated)
      s.candidate_count.toNat with
  | some j =>
    let candidate_index := s.preferences i j
    s.set_candidate candidate_index
      { s.candidates candidate_index with votes := (s.candidates candidate_index).votes + 1 }
  | none => s

/-- The function `void tabulate(void)`, counting in exact arithmetic. -/
def tabulate (s : State) : State :=
  for_loop tabulate_ballot s.voter_count.toNat s

/-- The largest value of a 32-bit `int`. -/
def INT_MAX : Int := 2147483647

/-- The smallest value of a 32-bit `int`. -/
def INT_MIN : Int := -2147483648

/-- The value a 32-bit `int` holds after an arithmetic result `v`: `v` reduced
modulo `2 ^ 32` into the range from `INT_MIN` to `INT_MAX`. -/
def wrap_int (v : Int) : Int := (v + 2147483648) % 4294967296 - 2147483648

/-- The body of the outer loop of `tabulate` for voter `i`, with
`candidates[candidate_index].votes++` on a 32-bit `int`. -/
def tabulate_ballot_wrapping (i : Nat) (s : State) : State :=
  match first_index (fun j => !(s.candidates (s.preferences i j)).eliminated)
      s.candidate_count.toNat with
  | some j =>
    let candidate_index := s.preferences i j
    s.set_candidate candidate_index
      { s.candidates candidate_index with
        votes := wrap_int ((s.candidates candidate_index).votes + 1) }
  | none => s

/-- The function `void tabulate(void)`, counting in 32-bit `int`s. -/
def tabulate_wrapping (s : State) : State :=
  for_loop tabulate_ballot_wrapping s.voter_count.toNat s

/-- The index at which the loop of `print_winner` returns true: the first
candidate whose votes exceed `majority`; `none` when the loop runs to its end. -/
def winner_index (s : State) : Option Nat :=
  let majority := s.voter_count.tdiv 2
  first_index (fun i => decide ((s.candidates i).votes > majority)) s.candidate_count.toNat

/-- The function `bool print_winner(void)`: the returned flag and the lines
printed. -/
def print_winner (s : State) : Bool × List String :=
  match winner_index s with
  | some i => (true, [(s.candidates i).name])
  | none => (false, [])

/-- The body of the loop of `find_min` for candidate `i`. -/
def find_min_step (s : State) (i : Nat) (min_votes : Int) : Int :=
  if !(s.candidates i).eliminated && decide ((s.candidates i).votes < min_votes) then
    (s.candidates i).votes
  else min_votes

/-- The function `int find_min(void)`. -/
def find_min (s : State) : Int :=
  for_loop (find_min_step s) s.candidate_count.toNat s.voter_count

/-- The body of the loop of `is_tie` for candidate `i`, on the pair
`(remaining_candidates, candidates_with_min_votes)`. -/
def is_tie_step (s : State) (min : Int) (i : Nat) (acc : Int × Int) : Int × Int :=
  if !(s.candidates i).eliminated then
    if (s.candidates i).votes == min then (acc.1 + 1, acc.2 + 1) else (acc.1 + 1, acc.2)
  else acc

/-- The two counters of `is_tie` after its loop:
`(remaining_candidates, candidates_with_min_votes)`. -/
def is_tie_counters (s : State) (min : Int) : Int × Int :=
  for_loop (is_tie_step s min) s.candidate_count.toNat (0, 0)

/-- The function `bool is_tie(int min)`. -/
def is_tie (s : State) (min : Int) : Bool :=
  if (is_tie_counters s min).1 == (is_tie_counters s min).2 then true else false

/-- The body of the loop of `eliminate` for candidate `i`. -/
def eliminate_step (min : Int) (i : Nat) (t : State) : State :=
  if (t.candidates i).votes == min then
    t.set_candidate i { t.candidates i with eliminated := true }
  else t

/-- The function `void eliminate(int min)`. -/
def eliminate (s : State) (min : Int) : State :=
  for_loop (eliminate_step min) s.candidate_count.toNat s

/-- The body of the loop at the end of a round: `candidates[i].votes = 0`. -/
def reset_step (i : Nat) (t : State) : State :=
  t.set_candidate i { t.candidates i with votes := 0 }

/-- The loop at the end of a round: `candidates[i].votes = 0` for every `i`. -/
def reset_votes (s : State) : State :=
  for_loop reset_step s.candidate_count.toNat s

/-- The lines printed in the tie branch of `main`: the names of the candidates
that are not eliminated. -/
def print_remaining (s : State) : List String :=
  for_loop
    (fun i (out : List String) =>
      if !(s.candidates i).eliminated then out ++ [(s.candidates i).name] else out)
    s.candidate_count.toNat []

/-- What one pass through the body of `while (true)` in `main` does. -/
inductive RoundResult where
  /-- The call of `print_winner` returned true: `break` with the winner printed. -/
  | WINNER_FOUND (out : List String) (s : State)
  /-- The call `is_tie(min)` returned true: `break` with the remaining names printed. -/
  | ALL_TIED (out : List String) (s : State)
  /-- The loop body ran to its end and the loop goes round again. -/
  | CONTINUE (s : State)

/-- The body of `while (true)` in `main`. -/
def round (s : State) : RoundResult :=
  let s1 := tabulate s
  let won := print_winner s1
  if won.1 then RoundResult.WINNER_FOUND won.2 s1
  else
    let min := find_min s1
    let tie := is_tie s1 min
    if tie then RoundResult.ALL_TIED (print_remaining s1) s1
    else RoundResult.CONTINUE (reset_votes (eliminate s1 min))

/-- The final state, the lines printed and the number of rounds run. -/
structure Finished where
  state : State
  out : List String
  rounds : Nat
  won : Bool

/-- The loop `while (true)` of `main`, run for at most `fuel` rounds;
`none` when the loop has not left within `fuel` rounds. -/
def round_loop : Nat → State → Option Finished
  | 0, _ => none
  | fuel + 1, s =>
    match round s with
    | RoundResult.WINNER_FOUND out t => some ⟨t, out, 1, true⟩
    | RoundResult.ALL_TIED out t => some ⟨t, out, 1, false⟩
    | RoundResult.CONTINUE t =>
      (round_loop fuel t).map fun f => { f with rounds := f.rounds + 1 }

/-- A zero-initialised cell of the global array `candidates`. -/
def empty_cell : candidate := ⟨"", 0, false⟩

/-- The globals holding the roster `roster` in the first cells of `candidates`
and the rows `ballots` in the first rows of `preferences`; every other cell
is zero, as in a C global. -/
def state_of (roster : List candidate) (ballots : List (List Nat)) : State where
  preferences := fun i j => (ballots.getD i []).getD j 0
  candidates := fun i => roster.getD i empty_cell
  voter_count := ballots.length
  candidate_count := roster.length

/-- The state `main` builds before the round loop: the roster of `names` with
all votes 0 and nobody eliminated, and the recorded ballots. -/
def initial_state (names : List String) (ballots : List (List Nat)) : State :=
  state_of (names.map fun n => ⟨n, 0, false⟩) ballots

/-! ## Vocabulary of the specification -/

/-- Every entry of the ballots in use is an index into the roster. -/
def valid_indices (s : State) : Prop :=
  ∀ i, i < s.voter_count.toNat → ∀ j, j < s.candidate_count.toNat →
    s.preferences i j < s.candidate_count.toNat

instance (s : State) : Decidable (valid_indices s) := by
  unfold valid_indices; infer_instance

/-- The ballot of voter `i`: the candidates ranked, rank 0 first. -/
def ballot (s : State) (i : Nat) : List Nat :=
  (List.range s.candidate_count.toNat).map (s.preferences i)

/-- The first entry of voter `i`'s ballot that is not eliminated, `none` when
every ranked candidate is eliminated (the ballot is exhausted). -/
def top_choice (s : State) (i : Nat) : Option Nat :=
  (ballot s i).find? fun c => !(s.candidates c).eliminated

/-- The number of ballots whose first non-eliminated entry is `c`. -/
def ballots_for (s : State) (c : Nat) : Nat :=
  (List.range s.voter_count.toNat).countP fun i => top_choice s i = some c

/-- State `t` differs from `s` at most in the vote counters. -/
def only_votes_changed (s t : State) : Prop :=
  t.preferences = s.preferences ∧ t.voter_count = s.voter_count ∧
    t.candidate_count = s.candidate_count ∧
    ∀ c, (t.candidates c).eliminated = (s.candidates c).eliminated ∧
      (t.candidates c).name = (s.candidates c).name

/-- The sum of the votes of the candidates of the roster that are not
eliminated. -/
def live_votes (s : State) : Int :=
  (((List.range s.candidate_count.toNat).filter fun c => !(s.candidates c).eliminated).map
    fun c => (s.candidates c).votes).sum

/-- Every candidate of the roster has 0 votes. -/
def zero_votes (s : State) : Prop :=
  ∀ c, c < s.candidate_count.toNat → (s.candidates c).votes = 0

instance (s : State) : Decidable (zero_votes s) := by
  unfold zero_votes; infer_instance

/-- Voter `i`'s ballot ranks at least one candidate that is not eliminated
(the ballot is not exhausted). -/
def ranks_live_candidate (s : State) (i : Nat) : Prop :=
  ∃ c ∈ ballot s i, (s.candidates c).eliminated = false

instance (s : State) (i : Nat) : Decidable (ranks_live_candidate s i) := by
  unfold ranks_live_candidate; infer_instance

/-- The number of candidates of the roster that are not eliminated. -/
def remaining_count (s : State) : Nat :=
  (List.range s.candidate_count.toNat).countP fun c => !(s.candidates c).eliminated

/-- The number of candidates of the roster that are not eliminated and hold
exactly `min` votes. -/
def min_count (s : State) (min : Int) : Nat :=
  (List.range s.candidate_count.toNat).countP fun c =>
    !(s.candidates c).eliminated && (s.candidates c).votes == min

/-- Every candidate eliminated in `s` is eliminated in `t`. -/
def eliminated_grows (s t : State) : Prop :=
  ∀ c, (s.candidates c).eliminated = true → (t.candidates c).eliminated = true

/-- The states in which the round loop of `main` stands at the head of a
round, when it is entered in state `s0`. -/
inductive reachable (s0 : State) : State → Prop where
  | start : reachable s0 s0
  | next {s t : State} : reachable s0 s → round s = RoundResult.CONTINUE t → reachable s0 t

/-- The condition under which `main` enters a round: a number of voters that
is not negative, ballots that hold roster indices and all votes at 0. -/
def round_ready (s : State) : Prop :=
  0 ≤ s.voter_count ∧ valid_indices s ∧ zero_votes s

/-- Nobody of the roster is eliminated. -/
def nobody_eliminated (s : State) : Prop :=
  ∀ c, c < s.candidate_count.toNat → (s.candidates c).eliminated = false

instance (s : State) : Decidable (nobody_eliminated s) := by
  unfold nobody_eliminated; infer_instance

/-! ## Example states -/

/-- Roster Alice, Bob (eliminated), Charlie with four ballots, the last of
which ranks only the eliminated candidate. -/
def example_tabulate : State :=
  state_of [⟨"Alice", 0, false⟩, ⟨"Bob", 0, true⟩, ⟨"Charlie", 0, false⟩]
    [[1, 0, 2], [1, 2, 0], [0, 1, 2], [1, 1, 1]]

/-- Roster of one candidate who holds `INT_MAX` votes before the call, and one
ballot for that candidate. -/
def example_overflow : State :=
  state_of [⟨"Alice", 2147483647, false⟩] [[0]]

/-- Roster of three with 5 voters: Bob holds 3 votes, the others 2 and 0. -/
def example_majority : State :=
  { state_of [⟨"Alice", 2, false⟩, ⟨"Bob", 3, false⟩, ⟨"Charlie", 0, false⟩] [] with
    voter_count := 5 }

/-- Roster of three with 5 voters: Alice holds 3 votes, Charlie 2, and Bob is
eliminated with 0 votes. -/
def example_min : State :=
  { state_of [⟨"Alice", 3, false⟩, ⟨"Bob", 0, true⟩, ⟨"Charlie", 2, false⟩] [] with
    voter_count := 5 }

/-- Roster of three and five ballots on which two rounds are run: Charlie is
eliminated in round 1 and round 2 gives Alice 3 votes of 5. -/
def example_election : State :=
  initial_state ["Alice", "Bob", "Charlie"]
    [[0, 1, 2], [0, 2, 1], [1, 0, 2], [1, 2, 0], [2, 0, 1]]

/-- Roster Alice, Bob with ballots Alice > Bob three times and Bob > Alice
twice. -/
def example_first_round : State :=
  initial_state ["Alice", "Bob"] [[0, 1], [0, 1], [0, 1], [1, 0], [1, 0]]

/-- Roster Alice, Bob, Charlie and the three ballots of a three-way cycle. -/
def example_cycle : State :=
  initial_state ["Alice", "Bob", "Charlie"] [[0, 1, 2], [1, 2, 0], [2, 0, 1]]

/-- The names of the candidates of the roster that are not eliminated, each
once, in roster order. -/
def names_remaining (s : State) : List String :=
  ((List.range s.candidate_count.toNat).filter fun c => !(s.candidates c).eliminated).map
    fun c => (s.candidates c).name

/-- The state in which the round loop stops on `example_election`: the
tabulation of round 2. -/
def example_election_final : State :=
  tabulate (reset_votes (eliminate (tabulate example_election)
    (find_min (tabulate example_election))))

/-- The number of ballots that rank candidate `c` first. -/
def first_rank_count (s : State) (c : Nat) : Nat :=
  (List.range s.voter_count.toNat).countP fun i => s.preferences i 0 = c

/-! ## The input stages of `main` -/

/-- The constant `MAX_VOTERS`. -/
def MAX_VOTERS : Int := 100

/-- The constant `MAX_CANDIDATES`. -/
def MAX_CANDIDATES : Int := 9

/-- The globals after stage 2 of `main` (lines 84 to 99) and the assignment
`voter_count = get_int(...)`: the roster is `argv` without the program name,
all votes 0, nobody eliminated, and `preferences` still all zero. -/
def init_globals (argv : List String) (voters : Int) : State where
  preferences := fun _ _ => 0
  candidates := fun i => (argv.tail.map fun n => (⟨n, 0, false⟩ : candidate)).getD i empty_cell
  voter_count := voters
  candidate_count := (argv.length : Int) - 1

/-- The function `main` up to the point where it returns or would enter
stage 4: the exit code and the lines printed by `printf`.  `voters` is the
number `get_int` returns.  The block in the body of the `do` loop (lines 106
to 109) prints the message and returns 3 without testing `voter_count`, so
the loop condition and stages 4 and 5 are never reached. -/
def main (argv : List String) (voters : Int) : Int × List String :=
  let argc : Int := argv.length
  if argc < 2 then (1, ["Usage: runoff [candidate ...]"])
  else
    let s := init_globals argv voters
    if s.candidate_count > MAX_CANDIDATES then (2, ["Maximum number of candidates is 9"])
    else (3, ["Maximum number of voters is 100"])

/-- The progress of the loops of stage 4: the globals, the lines printed and
whether `main` has returned (with code 4). -/
structure Collecting where
  state : State
  out : List String
  returned : Bool

/-- The body of the inner loop of stage 4 for voter `i` and rank `j`, where
`entered i j` is the name `get_string` returns. -/
def record_rank (entered : Nat → Nat → String) (i j : Nat) (p : Collecting) : Collecting :=
  if p.returned then p
  else
    let r := vote p.state i j (entered i j)
    if !r.1 then { state := r.2, out := p.out ++ ["Invalid vote."], returned := true }
    else { p with state := r.2 }

/-- The body of the outer loop of stage 4 for voter `i`: the ranks are asked
in turn and an empty line is printed after the last. -/
def record_ballot (entered : Nat → Nat → String) (i : Nat) (p : Collecting) : Collecting :=
  if p.returned then p
  else
    let q := for_loop (record_rank entered i) p.state.candidate_count.toNat p
    if q.returned then q else { q with out := q.out ++ [""] }

/-- Stage 4 of `main` (lines 114 to 131). -/
def collect_ballots (entered : Nat → Nat → String) (s : State) : Collecting :=
  for_loop (record_ballot entered) s.voter_count.toNat ⟨s, [], false⟩

/-- The names typed in the run documented at the end of the source file. -/
def documented_entries : Nat → Nat → String := fun i j =>
  ([["Alice", "Bob", "Charlie"], ["Bob", "Charlie", "Alice"],
    ["Charlie", "Alice", "Bob"]].getD i []).getD j ""

/-- The globals after stage 4 on the documented run, had stage 3 let it
through: `./runoff Alice Bob Charlie`, 3 voters. -/
def documented_run : State :=
  (collect_ballots documented_entries
    (init_globals ["./runoff", "Alice", "Bob", "Charlie"] 3)).state


/-- Roster Alice, Bob entered by `main` with -1 as the number of voters. -/
def example_negative : State :=
  init_globals ["./runoff", "Alice", "Bob"] (-1)

/-- Roster index `k` is the first candidate of the roster named `name`. -/
def is_first_match (s : State) (name : String) (k : Nat) : Prop :=
  k < s.candidate_count.toNat ∧ (s.candidates k).name = name ∧
    ∀ m, m < k → (s.candidates m).name ≠ name

/-- The first `candidate_count` entries of voter `i`'s row of `preferences`. -/
def ballot_row (s : State) (i : Nat) : List Nat :=
  (List.range s.candidate_count.toNat).map (s.preferences i)

/-- A voter of the roster Alice, Bob who names Alice at both ranks. -/
def example_repeat : Collecting :=
  record_ballot (fun _ _ => "Alice") 0 ⟨init_globals ["./runoff", "Alice", "Bob"] 1, [], false⟩
end Runoff

/-!
# Plurality election (`cs50x/plurality.c`)

The globals `candidates` and `candidate_count` are the fields of
`Plurality.State`; the loops are those of the runoff embedding.
-/

namespace Plurality

open Runoff (for_loop first_index wrap_int INT_MIN INT_MAX)

/-- The C struct `candidate` of `plurality.c`. -/
structure candidate where
  name : String
  votes : Int
  deriving DecidableEq

/-- The global variables of `plurality.c`. -/
structure State where
  /-- The array `candidates[i]`. -/
  candidates : Nat → candidate
  candidate_count : Int

/-- The assignment `candidates[i] = c`. -/
def State.set_candidate (s : State) (i : Nat) (c : candidate) : State :=
  { s with candidates := Function.update s.candidates i c }

/-- The function `bool vote(string name)`: the returned flag and the state
after the call, with `candidates[i].votes++` on a 32-bit `int`. -/
def vote (s : State) (name : String) : Bool × State :=
  match first_index (fun i => name == (s.candidates i).name) s.candidate_count.toNat with
  | some i =>
    (true, s.set_candidate i
      { s.candidates i with votes := wrap_int ((s.candidates i).votes + 1) })
  | none => (false, s)

/-- The body of the first loop of `print_winner` for candidate `i`. -/
def max_votes_step (s : State) (i : Nat) (max_votes : Int) : Int :=
  if (s.candidates i).votes > max_votes then (s.candidates i).votes else max_votes

/-- The value of `max_votes` after the first loop of `print_winner`. -/
def max_votes (s : State) : Int :=
  for_loop (max_votes_step s) s.candidate_count.toNat 0

/-- The body of the second loop of `print_winner` for candidate `i`, on the
lines printed so far. -/
def print_step (s : State) (i : Nat) (out : List String) : List String :=
  if (s.candidates i).votes == max_votes s then out ++ [(s.candidates i).name] else out

/-- The function `void print_winner(void)`: the lines printed. -/
def print_winner (s : State) : List String :=
  for_loop (print_step s) s.candidate_count.toNat []

/-! ## Vocabulary of the specification -/

/-- Candidate `i` holds the maximum vote count of the roster: nobody of the
roster has more votes. -/
def holds_maximum (s : State) (i : Nat) : Prop :=
  ∀ j, j < s.candidate_count.toNat → (s.candidates j).votes ≤ (s.candidates i).votes

instance (s : State) (i : Nat) : Decidable (holds_maximum s i) := by
  unfold holds_maximum; infer_instance

/-- The names of the candidates holding the maximum, in roster order. -/
def top_names (s : State) : List String :=
  ((List.range s.candidate_count.toNat).filter fun i => decide (holds_maximum s i)).map
    fun i => (s.candidates i).name

/-- The roster of `l` in the first cells of `candidates`. -/
def state_of (l : List candidate) : State where
  candidates := fun i => l.getD i ⟨"", 0⟩
  candidate_count := l.length

/-- Roster Alice 2, Bob 3, Charlie 3. -/
def example_tally : State :=
  state_of [⟨"Alice", 2⟩, ⟨"Bob", 3⟩, ⟨"Charlie", 3⟩]

end Plurality

/-!
# Image filters (`cs50x/grayscale_commented.c`)

An image `RGBTRIPLE image[height][width]` is a map from row and column to a
pixel.  The functions compute their results through a floating-point division
followed by `round`; the division is a parameter `fdiv` of the embedding, of
which the theorems assume what `accurate` says, and `round` is `c_round` on
the rationals.
-/

namespace Filter

open Runoff (for_loop)

/-- Modelled from the spec: the struct `RGBTRIPLE` of `helpers.h`, which is
not among the sources.  The comments of `grayscale` describe it as the red,
green and blue values of one pixel, each a value from 0 to 255 (a byte). -/
structure RGBTRIPLE where
  rgbtBlue : Nat
  rgbtGreen : Nat
  rgbtRed : Nat
  deriving DecidableEq

/-- The parameter `RGBTRIPLE image[height][width]`. -/
abbrev Image := Nat → Nat → RGBTRIPLE

/-- The assignment `image[i][j] = p`. -/
def set_pixel (image : Image) (i j : Nat) (p : RGBTRIPLE) : Image :=
  Function.update image i (Function.update (image i) j p)

/-- The conversion of an integer value to a byte on assignment to a channel. -/
def to_byte (v : Int) : Nat := (v % 256).toNat

/-- The function `round` of `math.h`: the nearest integer, halfway cases away
from zero. -/
def c_round (x : Rat) : Int :=
  if 0 ≤ x then Int.floor (x + 1 / 2) else -Int.floor (-x + 1 / 2)

/-- The exact quotient of two integers. -/
def exact_div (n d : Int) : Rat := (n : Rat) / (d : Rat)

/-- What is assumed of the floating-point division `fdiv n d` of two integers
(converted to `double` in `grayscale`, to `float` in `blur`) in the range the
filters use, at most 9 bytes summed and at most 9 of them counted: the result
is within a relative error of `2 ^ (-20)` of the exact quotient, and it is the
exact quotient when that is a multiple of one half.  A correctly rounded
binary division of 24 or more significant bits satisfies both. -/
def accurate (fdiv : Int → Int → Rat) : Prop :=
  ∀ n d : Int, 0 ≤ n → n ≤ 2295 → 1 ≤ d → d ≤ 9 →
    |fdiv n d - exact_div n d| ≤ exact_div n d / 2 ^ 20 ∧
    (d ∣ 2 * n → fdiv n d = exact_div n d)

/-- The body of the loops of `grayscale` for the pixel `p = image[i][j]`. -/
def grayscale_pixel (fdiv : Int → Int → Rat) (p : RGBTRIPLE) : RGBTRIPLE :=
  let red : Int := p.rgbtRed
  let green : Int := p.rgbtGreen
  let blue : Int := p.rgbtBlue
  let average : Int := c_round (fdiv (red + green + blue) 3)
  { rgbtRed := to_byte average, rgbtGreen := to_byte average, rgbtBlue := to_byte average }

/-- The function `void grayscale(int height, int width, RGBTRIPLE image[height][width])`:
the image after the call. -/
def grayscale (fdiv : Int → Int → Rat) (height width : Int) (image : Image) : Image :=
  for_loop
    (fun i img => for_loop (fun j img => set_pixel img i j (grayscale_pixel fdiv (img i j)))
      width.toNat img)
    height.toNat image

/-- The body of the inner loop of `reflect` for row `i` and column `j`: the
swap of `image[i][j]` and `image[i][width - 1 - j]` through `temp`. -/
def reflect_swap (width : Int) (i j : Nat) (image : Image) : Image :=
  let temp := image i j
  let image1 := set_pixel image i j (image i (width - 1 - j).toNat)
  set_pixel image1 i (width - 1 - j).toNat temp

/-- The function `void reflect(int height, int width, RGBTRIPLE image[height][width])`:
the image after the call. -/
def reflect (height width : Int) (image : Image) : Image :=
  for_loop (fun i img => for_loop (reflect_swap width i) (width.tdiv 2).toNat img)
    height.toNat image

/-- The first pair of loops of `blur`: `temp[i][j] = image[i][j]`, into an
array `temp` whose cells outside the image are never read. -/
def copy_image (height width : Int) (image : Image) : Image :=
  for_loop (fun i t => for_loop (fun j t => set_pixel t i j (image i j)) width.toNat t)
    height.toNat (fun _ _ => ⟨0, 0, 0⟩)

/-- The variables `sumRed`, `sumGreen`, `sumBlue` and `count` of `blur`. -/
structure Sums where
  sumRed : Int
  sumGreen : Int
  sumBlue : Int
  count : Int
  deriving DecidableEq

/-- The body of the loops over `k` and `l` in `blur`. -/
def blur_neighbour (height width : Int) (temp : Image) (i j : Nat) (k l : Int) (acc : Sums) :
    Sums :=
  let new_i : Int := i + k
  let new_j : Int := j + l
  if new_i ≥ 0 && new_i < height && new_j ≥ 0 && new_j < width then
    { sumRed := acc.sumRed + (temp new_i.toNat new_j.toNat).rgbtRed
      sumGreen := acc.sumGreen + (temp new_i.toNat new_j.toNat).rgbtGreen
      sumBlue := acc.sumBlue + (temp new_i.toNat new_j.toNat).rgbtBlue
      count := acc.count + 1 }
  else acc

/-- The loops `for (int k = -1; k <= 1; k++) for (int l = -1; l <= 1; l++)` of
`blur` for the pixel at row `i` and column `j`: the sums and the count. -/
def blur_sums (height width : Int) (temp : Image) (i j : Nat) : Sums :=
  for_loop
    (fun a acc => for_loop
      (fun b acc => blur_neighbour height width temp i j ((a : Int) - 1) ((b : Int) - 1) acc)
      3 acc)
    3 ⟨0, 0, 0, 0⟩

/-- The pixel `blur` stores at row `i` and column `j`. -/
def blur_pixel (fdiv : Int → Int → Rat) (height width : Int) (temp : Image) (i j : Nat) :
    RGBTRIPLE :=
  let s := blur_sums height width temp i j
  { rgbtRed := to_byte (c_round (fdiv s.sumRed s.count))
    rgbtGreen := to_byte (c_round (fdiv s.sumGreen s.count))
    rgbtBlue := to_byte (c_round (fdiv s.sumBlue s.count)) }

/-- The function `void blur(int height, int width, RGBTRIPLE image[height][width])`:
the image after the call. -/
def blur (fdiv : Int → Int → Rat) (height width : Int) (image : Image) : Image :=
  let temp := copy_image height width image
  for_loop
    (fun i img => for_loop
      (fun j img => set_pixel img i j (blur_pixel fdiv height width temp i j)) width.toNat img)
    height.toNat image

/-- The image whose rows are the lists of `rows`, black elsewhere. -/
def image_of (rows : List (List RGBTRIPLE)) : Image :=
  fun i j => (rows.getD i []).getD j ⟨0, 0, 0⟩


/-! ## Vocabulary of the specification -/

/-- Every channel of every pixel of the image is a byte value, 0 to 255. -/
def byte_image (height width : Int) (image : Image) : Prop :=
  ∀ i, i < height.toNat → ∀ j, j < width.toNat →
    (image i j).rgbtRed ≤ 255 ∧ (image i j).rgbtGreen ≤ 255 ∧ (image i j).rgbtBlue ≤ 255

instance (height width : Int) (image : Image) : Decidable (byte_image height width image) := by
  unfold byte_image; infer_instance

/-- The integer `a` is the nearest integer to `n / d`, a halfway case being
rounded up: `a - 1/2 <= n / d < a + 1/2`. -/
def is_rounded_quotient (n d a : Int) : Prop :=
  2 * a * d - d ≤ 2 * n ∧ 2 * n < 2 * a * d + d

/-- The nearest integer to `n / d`, a halfway case being rounded up. -/
def rounded_quotient (n d : Int) : Int := (2 * n + d) / (2 * d)

/-- An image of two rows and three columns. -/
def example_image : Image :=
  image_of [[⟨200, 150, 100⟩, ⟨201, 150, 100⟩, ⟨202, 150, 100⟩],
    [⟨50, 100, 200⟩, ⟨1, 2, 3⟩, ⟨255, 255, 255⟩]]

/-- The nine offsets `(k, l)` with `k` and `l` in -1, 0, 1, in the order in
which the loops of `blur` visit them. -/
def offsets : List (Int × Int) :=
  [(-1, -1), (-1, 0), (-1, 1), (0, -1), (0, 0), (0, 1), (1, -1), (1, 0), (1, 1)]

/-- The position `(i + k, j + l)` lies inside the image. -/
def inside (height width : Int) (i j : Nat) (o : Int × Int) : Bool :=
  decide ((i : Int) + o.1 ≥ 0) && decide ((i : Int) + o.1 < height) &&
    decide ((j : Int) + o.2 ≥ 0) && decide ((j : Int) + o.2 < width)

/-- The positions `(i + k, j + l)`, `k` and `l` in -1, 0, 1, that lie inside
the image. -/
def neighbours (height width : Int) (i j : Nat) : List (Nat × Nat) :=
  (offsets.filter (inside height width i j)).map fun o =>
    (((i : Int) + o.1).toNat, ((j : Int) + o.2).toNat)

/-- The sum of channel `f` of the image over the positions `nb`. -/
def channel_sum (f : RGBTRIPLE → Nat) (image : Image) (nb : List (Nat × Nat)) : Int :=
  (nb.map fun q => (f (image q.1 q.2) : Int)).sum
end Filter

/-! # Theorems -/

namespace Runoff

/-! ## Loop lemmas -/

theorem first_index_from_eq_find (p : Nat → Bool) (fuel i : Nat) :
    first_index_from p fuel i = (List.range' i fuel).find? p := by
  induction fuel generalizing i with
  | zero => rfl
  | succ fuel ih =>
    simp only [first_index_from, List.range'_succ, List.find?_cons, ih]
    cases p i <;> simp

theorem first_index_eq_find (p : Nat → Bool) (n : Nat) :
    first_index p n = (List.range n).find? p := by
  rw [first_index, first_index_from_eq_find, List.range_eq_range']

theorem first_index_from_some {p : Nat → Bool} {fuel i k : Nat}
    (h : first_index_from p fuel i = some k) :
    i ≤ k ∧ k < i + fuel ∧ p k = true ∧ ∀ j, i ≤ j → j < k → p j = false := by
  induction fuel generalizing i with
  | zero => simp [first_index_from] at h
  | succ fuel ih =>
    rw [first_index_from] at h
    by_cases hp : p i = true
    · rw [if_pos hp] at h
      obtain rfl : i = k := by simpa using h
      exact ⟨le_refl _, by omega, hp, fun j h1 h2 => by omega⟩
    · rw [if_neg hp] at h
      obtain ⟨h1, h2, h3, h4⟩ := ih h
      refine ⟨by omega, by omega, h3, fun j hj hjk => ?_⟩
      by_cases hji : j = i
      · subst hji; simpa using hp
      · exact h4 j (by omega) hjk

theorem first_index_from_none {p : Nat → Bool} {fuel i : Nat}
    (h : first_index_from p fuel i = none) :
    ∀ j, i ≤ j → j < i + fuel → p j = false := by
  induction fuel generalizing i with
  | zero => intro j h1 h2; omega
  | succ fuel ih =>
    rw [first_index_from] at h
    by_cases hp : p i = true
    · rw [if_pos hp] at h; cases h
    · rw [if_neg hp] at h
      intro j h1 h2
      by_cases hji : j = i
      · subst hji; simpa using hp
      · exact ih h j (by omega) (by omega)

theorem first_index_some {p : Nat → Bool} {n k : Nat} (h : first_index p n = some k) :
    k < n ∧ p k = true ∧ ∀ j, j < k → p j = false := by
  obtain ⟨_, h2, h3, h4⟩ := first_index_from_some h
  exact ⟨by omega, h3, fun j hj => h4 j (Nat.zero_le _) hj⟩

theorem first_index_none {p : Nat → Bool} {n : Nat} (h : first_index p n = none) :
    ∀ j, j < n → p j = false := fun j hj =>
  first_index_from_none h j (Nat.zero_le _) (by omega)

/-- The loop leaves at `k` as soon as `k` is the least index satisfying the test. -/
theorem first_index_of_least {p : Nat → Bool} {n k : Nat} (hk : k < n) (hp : p k = true)
    (hmin : ∀ j, j < k → p j = false) : first_index p n = some k := by
  cases h : first_index p n with
  | none => have := first_index_none h k hk; simp [hp] at this
  | some k' =>
    obtain ⟨h1, h2, h3⟩ := first_index_some h
    rcases Nat.lt_trichotomy k k' with hlt | heq | hgt
    · have := h3 k hlt; simp [hp] at this
    · rw [heq]
    · have := hmin k' hgt; simp [h2] at this

theorem first_index_isSome_iff {p : Nat → Bool} {n : Nat} :
    (first_index p n).isSome = true ↔ ∃ k, k < n ∧ p k = true := by
  constructor
  · intro h
    obtain ⟨k, hk⟩ := Option.isSome_iff_exists.mp h
    exact ⟨k, (first_index_some hk).1, (first_index_some hk).2.1⟩
  · rintro ⟨k, hk, hp⟩
    cases h : first_index p n with
    | none => have := first_index_none h k hk; simp [hp] at this
    | some _ => rfl

/-! ## tabulate -/

@[simp] theorem set_candidate_candidates (s : State) (i : Nat) (c : candidate) (k : Nat) :
    (s.set_candidate i c).candidates k = if k = i then c else s.candidates k := by
  simp [State.set_candidate, Function.update_apply]

@[simp] theorem set_candidate_preferences (s : State) (i : Nat) (c : candidate) :
    (s.set_candidate i c).preferences = s.preferences := rfl

@[simp] theorem set_candidate_voter_count (s : State) (i : Nat) (c : candidate) :
    (s.set_candidate i c).voter_count = s.voter_count := rfl

@[simp] theorem set_candidate_candidate_count (s : State) (i : Nat) (c : candidate) :
    (s.set_candidate i c).candidate_count = s.candidate_count := rfl

/-- The vocabulary of the specification describes the inner loop of `tabulate`. -/
theorem tabulate_ballot_eq (i : Nat) (s : State) :
    tabulate_ballot i s =
      match top_choice s i with
      | some c => s.set_candidate c { s.candidates c with votes := (s.candidates c).votes + 1 }
      | none => s := by
  unfold tabulate_ballot top_choice ballot
  rw [first_index_eq_find, List.find?_map]
  cases h : (List.range s.candidate_count.toNat).find?
      ((fun c => !(s.candidates c).eliminated) ∘ s.preferences i) with
  | none =>
    have : (List.range s.candidate_count.toNat).find?
        (fun j => !(s.candidates (s.preferences i j)).eliminated) = none := h
    simp only [this, Option.map_none']
  | some j =>
    have : (List.range s.candidate_count.toNat).find?
        (fun j => !(s.candidates (s.preferences i j)).eliminated) = some j := h
    simp only [this, Option.map_some']

theorem only_votes_changed_refl (s : State) : only_votes_changed s s :=
  ⟨rfl, rfl, rfl, fun _ => ⟨rfl, rfl⟩⟩

theorem only_votes_changed_trans {s t u : State} (h1 : only_votes_changed s t)
    (h2 : only_votes_changed t u) : only_votes_changed s u :=
  ⟨h2.1.trans h1.1, h2.2.1.trans h1.2.1, h2.2.2.1.trans h1.2.2.1,
    fun c => ⟨(h2.2.2.2 c).1.trans (h1.2.2.2 c).1, (h2.2.2.2 c).2.trans (h1.2.2.2 c).2⟩⟩

theorem top_choice_congr {s t : State} (h : only_votes_changed s t) (i : Nat) :
    top_choice t i = top_choice s i := by
  obtain ⟨h1, _, h3, h4⟩ := h
  unfold top_choice ballot
  rw [h1, h3]
  congr 1
  funext c
  rw [(h4 c).1]

theorem tabulate_ballot_frame (i : Nat) (s : State) :
    only_votes_changed s (tabulate_ballot i s) := by
  rw [tabulate_ballot_eq]
  cases top_choice s i with
  | none => exact only_votes_changed_refl s
  | some c =>
    refine ⟨rfl, rfl, rfl, fun d => ?_⟩
    by_cases hd : d = c
    · subst hd; simp
    · simp [hd]

theorem tabulate_ballot_votes (i : Nat) (s : State) (c : Nat) :
    ((tabulate_ballot i s).candidates c).votes =
      (s.candidates c).votes + if top_choice s i = some c then 1 else 0 := by
  rw [tabulate_ballot_eq]
  cases h : top_choice s i with
  | none => simp
  | some d =>
    by_cases hd : c = d
    · subst hd; simp
    · have : d ≠ c := fun e => hd e.symm
      simp [hd, this]

theorem tabulate_upto_frame (s : State) (n : Nat) :
    only_votes_changed s (for_loop tabulate_ballot n s) := by
  induction n with
  | zero => exact only_votes_changed_refl s
  | succ n ih => exact only_votes_changed_trans ih (tabulate_ballot_frame n _)

theorem tabulate_upto_votes (s : State) (n c : Nat) :
    ((for_loop tabulate_ballot n s).candidates c).votes =
      (s.candidates c).votes +
        ((List.range n).countP fun i => top_choice s i = some c : Nat) := by
  induction n with
  | zero => simp [for_loop]
  | succ n ih =>
    rw [for_loop, tabulate_ballot_votes, ih, top_choice_congr (tabulate_upto_frame s n),
      List.range_succ, List.countP_append]
    by_cases h : top_choice s n = some c
    · simp [h]; ring
    · simp [h]

theorem tabulate_frame (s : State) : only_votes_changed s (tabulate s) :=
  tabulate_upto_frame s _

theorem tabulate_votes (s : State) (c : Nat) :
    ((tabulate s).candidates c).votes = (s.candidates c).votes + ballots_for s c :=
  tabulate_upto_votes s _ c

theorem top_choice_isSome_iff (s : State) (i : Nat) :
    (top_choice s i).isSome = true ↔ ranks_live_candidate s i := by
  unfold ranks_live_candidate top_choice
  cases h : (ballot s i).find? fun c => !(s.candidates c).eliminated with
  | none =>
    simp only [Option.isSome_none, Bool.false_eq_true, false_iff]
    rw [List.find?_eq_none] at h
    rintro ⟨c, hc, he⟩
    exact h c hc (by simp [he])
  | some c =>
    simp only [Option.isSome_some, true_iff]
    exact ⟨c, List.mem_of_find?_eq_some h, by simpa using List.find?_some h⟩

theorem top_choice_live {s : State} {i c : Nat} (h : top_choice s i = some c) :
    (s.candidates c).eliminated = false := by
  simpa using List.find?_some h

theorem top_choice_mem {s : State} {i c : Nat} (h : top_choice s i = some c) :
    c ∈ ballot s i := List.mem_of_find?_eq_some h

theorem top_choice_lt {s : State} (hvalid : valid_indices s) {i c : Nat}
    (hi : i < s.voter_count.toNat) (h : top_choice s i = some c) :
    c < s.candidate_count.toNat := by
  have := top_choice_mem h
  simp only [ballot, List.mem_map, List.mem_range] at this
  obtain ⟨j, hj, rfl⟩ := this
  exact hvalid i hi j hj

/-! ## One call of tabulate on 32-bit counters -/

theorem wrap_int_of_range {v : Int} (h1 : INT_MIN ≤ v) (h2 : v ≤ INT_MAX) : wrap_int v = v := by
  unfold INT_MIN at h1
  unfold INT_MAX at h2
  unfold wrap_int
  omega

theorem top_choice_of_first_index {s : State} {i j : Nat}
    (h : first_index (fun j => !(s.candidates (s.preferences i j)).eliminated)
      s.candidate_count.toNat = some j) :
    top_choice s i = some (s.preferences i j) := by
  unfold top_choice ballot
  rw [List.find?_map]
  rw [first_index_eq_find] at h
  have h' : (List.range s.candidate_count.toNat).find?
      ((fun c => !(s.candidates c).eliminated) ∘ s.preferences i) = some j := h
  rw [h', Option.map_some']

/-- The two increments agree on a ballot whose first non-eliminated entry has
room for one more vote. -/
theorem tabulate_ballot_wrapping_eq (i : Nat) (s : State)
    (h : ∀ c, top_choice s i = some c →
      INT_MIN ≤ (s.candidates c).votes + 1 ∧ (s.candidates c).votes + 1 ≤ INT_MAX) :
    tabulate_ballot_wrapping i s = tabulate_ballot i s := by
  unfold tabulate_ballot_wrapping tabulate_ballot
  cases hf : first_index (fun j => !(s.candidates (s.preferences i j)).eliminated)
      s.candidate_count.toNat with
  | none => rfl
  | some j =>
    obtain ⟨h1, h2⟩ := h _ (top_choice_of_first_index hf)
    simp only [wrap_int_of_range h1 h2]

theorem ballots_for_upto_le (s : State) (c n : Nat) (hn : n ≤ s.voter_count.toNat) :
    ((List.range n).countP fun i => top_choice s i = some c) ≤ ballots_for s c :=
  (List.range_sublist.mpr hn).countP_le _

/-- The premise of the contract of one call: every roster counter is an `int`
and does not pass `INT_MAX` when its ballots are added. -/
theorem tabulate_wrapping_upto (s : State) (hvalid : valid_indices s)
    (hfit : ∀ c, c < s.candidate_count.toNat →
      INT_MIN ≤ (s.candidates c).votes ∧ (s.candidates c).votes + ballots_for s c ≤ INT_MAX)
    (n : Nat) (hn : n ≤ s.voter_count.toNat) :
    for_loop tabulate_ballot_wrapping n s = for_loop tabulate_ballot n s := by
  induction n with
  | zero => rfl
  | succ n ih =>
    rw [for_loop, for_loop, ih (by omega)]
    apply tabulate_ballot_wrapping_eq
    intro c hc
    rw [top_choice_congr (tabulate_upto_frame s n)] at hc
    have hlt := top_choice_lt hvalid (by omega : n < s.voter_count.toNat) hc
    obtain ⟨h1, h2⟩ := hfit c hlt
    have hle := ballots_for_upto_le s c (n + 1) hn
    rw [List.range_succ, List.countP_append] at hle
    simp only [List.countP_cons, List.countP_nil, hc, decide_True, if_true] at hle
    rw [tabulate_upto_votes]
    unfold INT_MIN at h1 ⊢
    omega

/-- On counters that are `int`s and do not pass `INT_MAX`, `tabulate` on
32-bit counters is `tabulate` in exact arithmetic. -/
theorem tabulate_wrapping_eq_tabulate (s : State) (hvalid : valid_indices s)
    (hfit : ∀ c, c < s.candidate_count.toNat →
      INT_MIN ≤ (s.candidates c).votes ∧ (s.candidates c).votes + ballots_for s c ≤ INT_MAX) :
    tabulate_wrapping s = tabulate s :=
  tabulate_wrapping_upto s hvalid hfit _ (le_refl _)

/-- From all-zero votes and a number of voters that is an `int`, `tabulate` on
32-bit counters is `tabulate` in exact arithmetic: the round loop never
overflows a counter. -/
theorem tabulate_wrapping_of_zero_votes (s : State) (hvalid : valid_indices s)
    (hzero : zero_votes s) (hvoters : s.voter_count ≤ INT_MAX) :
    tabulate_wrapping s = tabulate s := by
  apply tabulate_wrapping_eq_tabulate s hvalid
  intro c hc
  rw [hzero c hc]
  have hle : ballots_for s c ≤ s.voter_count.toNat := by
    unfold ballots_for
    have := List.countP_le_length (fun i => decide (top_choice s i = some c))
      (l := List.range s.voter_count.toNat)
    rwa [List.length_range] at this
  unfold INT_MIN
  unfold INT_MAX at hvoters ⊢
  omega

/-- C1, the claim as stated fails.  A candidate who holds `INT_MAX` votes
before the call and is the first non-eliminated entry of one valid ballot
holds `INT_MIN` votes after `tabulate`, not one vote more. -/
theorem tabulate_overflows_at_int_max :
    valid_indices example_overflow ∧
    (example_overflow.candidates 0).votes = 2147483647 ∧
    ballots_for example_overflow 0 = 1 ∧
    ((tabulate_wrapping example_overflow).candidates 0).votes = -2147483648 ∧
    ((tabulate_wrapping example_overflow).candidates 0).votes ≠
      (example_overflow.candidates 0).votes + ballots_for example_overflow 0 := by
  decide

/-- C1, amended.  For ballots whose entries are roster indices and roster
counters that are `int`s and do not pass `INT_MAX` when their ballots are
added, one call of `tabulate` adds to every candidate's votes the number of
ballots whose first non-eliminated entry is that candidate; while the ballots
are processed, a ballot whose every ranked candidate is eliminated leaves the
state as it is, and any other ballot adds one vote to its first
non-eliminated entry and nothing to anyone else. -/
theorem tabulate_counts_top_choices (s : State) (hvalid : valid_indices s)
    (hfit : ∀ c, c < s.candidate_count.toNat →
      INT_MIN ≤ (s.candidates c).votes ∧ (s.candidates c).votes + ballots_for s c ≤ INT_MAX) :
    (∀ c, ((tabulate_wrapping s).candidates c).votes =
      (s.candidates c).votes + ballots_for s c) ∧
    (∀ n, n < s.voter_count.toNat → top_choice s n = none →
      for_loop tabulate_ballot_wrapping (n + 1) s = for_loop tabulate_ballot_wrapping n s) ∧
    (∀ n c, n < s.voter_count.toNat → top_choice s n = some c → ∀ d,
      ((for_loop tabulate_ballot_wrapping (n + 1) s).candidates d).votes =
        ((for_loop tabulate_ballot_wrapping n s).candidates d).votes +
          if d = c then 1 else 0) := by
  refine ⟨fun c => ?_, fun n hlt hn => ?_, fun n c hlt hn d => ?_⟩
  · rw [tabulate_wrapping_eq_tabulate s hvalid hfit]
    exact tabulate_votes s c
  · rw [tabulate_wrapping_upto s hvalid hfit (n + 1) (by omega),
      tabulate_wrapping_upto s hvalid hfit n (by omega),
      for_loop, tabulate_ballot_eq, top_choice_congr (tabulate_upto_frame s n), hn]
  · rw [tabulate_wrapping_upto s hvalid hfit (n + 1) (by omega),
      tabulate_wrapping_upto s hvalid hfit n (by omega),
      for_loop, tabulate_ballot_votes, top_choice_congr (tabulate_upto_frame s n), hn]
    by_cases hd : d = c
    · simp [hd]
    · have : c ≠ d := fun e => hd e.symm
      simp [hd, this]

theorem tabulate_counts_top_choices_witness :
    valid_indices example_tabulate ∧
    (∀ c, c < example_tabulate.candidate_count.toNat →
      INT_MIN ≤ (example_tabulate.candidates c).votes ∧
        (example_tabulate.candidates c).votes + ballots_for example_tabulate c ≤ INT_MAX) ∧
    ((∀ c, ((tabulate_wrapping example_tabulate).candidates c).votes =
        (example_tabulate.candidates c).votes + ballots_for example_tabulate c) ∧
    (∀ n, n < example_tabulate.voter_count.toNat → top_choice example_tabulate n = none →
      for_loop tabulate_ballot_wrapping (n + 1) example_tabulate =
        for_loop tabulate_ballot_wrapping n example_tabulate) ∧
    (∀ n c, n < example_tabulate.voter_count.toNat →
      top_choice example_tabulate n = some c → ∀ d,
      ((for_loop tabulate_ballot_wrapping (n + 1) example_tabulate).candidates d).votes =
        ((for_loop tabulate_ballot_wrapping n example_tabulate).candidates d).votes +
          if d = c then 1 else 0)) :=
  ⟨by decide, by decide,
    tabulate_counts_top_choices example_tabulate (by decide) (by decide)⟩

/-! ## The sum of the votes -/

/-- The sum of `v` over the indices below `n` at which `e` is false. -/
theorem live_sum_succ (e : Nat → Bool) (v : Nat → Int) (n : Nat) :
    (((List.range (n + 1)).filter fun c => !e c).map v).sum =
      (((List.range n).filter fun c => !e c).map v).sum + if e n then 0 else v n := by
  rw [List.range_succ, List.filter_append, List.map_append, List.sum_append]
  cases h : e n <;> simp [List.filter, h]

theorem live_sum_congr (e : Nat → Bool) (v w : Nat → Int) (n : Nat)
    (h : ∀ c, c < n → e c = false → v c = w c) :
    (((List.range n).filter fun c => !e c).map v).sum =
      (((List.range n).filter fun c => !e c).map w).sum := by
  induction n with
  | zero => rfl
  | succ n ih =>
    rw [live_sum_succ, live_sum_succ, ih fun c hc => h c (by omega)]
    cases he : e n
    · simp [h n (by omega) he]
    · simp

theorem live_sum_bump (e : Nat → Bool) (v w : Nat → Int) (n k : Nat) (hk : k < n)
    (hek : e k = false) (hw : ∀ c, w c = v c + if c = k then 1 else 0) :
    (((List.range n).filter fun c => !e c).map w).sum =
      (((List.range n).filter fun c => !e c).map v).sum + 1 := by
  induction n with
  | zero => omega
  | succ n ih =>
    rw [live_sum_succ, live_sum_succ]
    by_cases hkn : k = n
    · subst hkn
      rw [live_sum_congr e w v k fun c hc _ => by rw [hw c, if_neg (by omega)]; simp]
      simp [hek, hw k]; ring
    · rw [ih (by omega)]
      have : w n = v n := by rw [hw n, if_neg (fun e => hkn e.symm)]; simp
      rw [this]; ring

theorem live_votes_congr {s t : State} (h : only_votes_changed s t) :
    live_votes t =
      (((List.range s.candidate_count.toNat).filter fun c => !(s.candidates c).eliminated).map
        fun c => (t.candidates c).votes).sum := by
  obtain ⟨_, _, h3, h4⟩ := h
  unfold live_votes
  have hflags : (fun c => !(t.candidates c).eliminated) =
      fun c => !(s.candidates c).eliminated := funext fun c => by rw [(h4 c).1]
  rw [h3, hflags]

theorem tabulate_upto_live_votes (s : State) (hvalid : valid_indices s) (n : Nat)
    (hn : n ≤ s.voter_count.toNat) :
    live_votes (for_loop tabulate_ballot n s) =
      live_votes s + ((List.range n).countP fun i => (top_choice s i).isSome : Nat) := by
  induction n with
  | zero => simp [for_loop]
  | succ n ih =>
    rw [List.range_succ, List.countP_append]
    have ih := ih (by omega)
    have hfr := tabulate_upto_frame s n
    have hfr' := tabulate_upto_frame s (n + 1)
    rw [live_votes_congr hfr] at ih
    rw [live_votes_congr hfr']
    cases htc : top_choice s n with
    | none =>
      have : for_loop tabulate_ballot (n + 1) s = for_loop tabulate_ballot n s := by
        rw [for_loop, tabulate_ballot_eq, top_choice_congr hfr, htc]
      rw [this, ih]; simp [htc]
    | some c =>
      rw [live_sum_bump (fun c => (s.candidates c).eliminated)
        (fun c => ((for_loop tabulate_ballot n s).candidates c).votes) _ _ c
        (top_choice_lt hvalid (by omega) htc) (top_choice_live htc)
        (fun d => by
          rw [for_loop, tabulate_ballot_votes, top_choice_congr hfr, htc]
          by_cases hd : d = c
          · simp [hd]
          · have : c ≠ d := fun e => hd e.symm
            simp [hd, this]), ih]
      simp [htc]; ring

theorem live_votes_zero {s : State} (h : zero_votes s) : live_votes s = 0 := by
  unfold live_votes
  apply List.sum_eq_zero
  intro x hx
  simp only [List.mem_map, List.mem_filter, List.mem_range] at hx
  obtain ⟨c, ⟨hc, _⟩, rfl⟩ := hx
  exact h c hc

/-- After `tabulate` from all-zero votes the votes of the candidates still in
the race add up to the number of ballots that are not exhausted. -/
theorem tabulate_live_votes (s : State) (hvalid : valid_indices s) (hzero : zero_votes s) :
    live_votes (tabulate s) =
      ((List.range s.voter_count.toNat).countP fun i => (top_choice s i).isSome : Nat) := by
  rw [tabulate, tabulate_upto_live_votes s hvalid _ (le_refl _), live_votes_zero hzero]
  simp

/-- C2. For an election of `voter_count >= 0` ballots whose entries are roster
indices, with the votes started from zero, the votes of the non-eliminated
candidates after `tabulate` add up to at most `voter_count`, and to exactly
`voter_count` if and only if every ballot ranks at least one non-eliminated
candidate. -/
theorem tabulate_sum_le_voter_count (s : State) (hvalid : valid_indices s)
    (hvoters : 0 ≤ s.voter_count) (hzero : zero_votes s) :
    live_votes (tabulate s) ≤ s.voter_count ∧
    (live_votes (tabulate s) = s.voter_count ↔
      ∀ i, i < s.voter_count.toNat → ranks_live_candidate s i) := by
  rw [tabulate_live_votes s hvalid hzero]
  have hlen : (List.range s.voter_count.toNat).length = s.voter_count.toNat :=
    List.length_range _
  have hle := List.countP_le_length (fun i => (top_choice s i).isSome)
    (l := List.range s.voter_count.toNat)
  rw [hlen] at hle
  have hcast : ((s.voter_count.toNat : Nat) : Int) = s.voter_count := Int.toNat_of_nonneg hvoters
  refine ⟨by omega, ?_⟩
  constructor
  · intro h i hi
    have h' : (List.range s.voter_count.toNat).countP (fun i => (top_choice s i).isSome) =
        (List.range s.voter_count.toNat).length := by omega
    rw [List.countP_eq_length] at h'
    exact (top_choice_isSome_iff s i).mp (h' i (List.mem_range.mpr hi))
  · intro h
    have h' : (List.range s.voter_count.toNat).countP (fun i => (top_choice s i).isSome) =
        (List.range s.voter_count.toNat).length := by
      rw [List.countP_eq_length]
      intro i hi
      exact (top_choice_isSome_iff s i).mpr (h i (List.mem_range.mp hi))
    omega

theorem tabulate_sum_le_voter_count_witness :
    valid_indices example_tabulate ∧ (0 : Int) ≤ example_tabulate.voter_count ∧
    zero_votes example_tabulate ∧
    (live_votes (tabulate example_tabulate) ≤ example_tabulate.voter_count ∧
    (live_votes (tabulate example_tabulate) = example_tabulate.voter_count ↔
      ∀ i, i < example_tabulate.voter_count.toNat → ranks_live_candidate example_tabulate i)) :=
  ⟨by decide, by decide, by decide,
    tabulate_sum_le_voter_count example_tabulate (by decide) (by decide) (by decide)⟩

/-! ## eliminate and the vote reset -/

theorem eliminate_upto (s : State) (min : Int) (n : Nat) :
    (for_loop (eliminate_step min) n s).preferences = s.preferences ∧
      (for_loop (eliminate_step min) n s).voter_count = s.voter_count ∧
      (for_loop (eliminate_step min) n s).candidate_count = s.candidate_count ∧
      ∀ k, (for_loop (eliminate_step min) n s).candidates k =
        if k < n ∧ (s.candidates k).votes = min then { s.candidates k with eliminated := true }
        else s.candidates k := by
  induction n with
  | zero => simp [for_loop]
  | succ n ih =>
    obtain ⟨h1, h2, h3, h4⟩ := ih
    have hn := h4 n
    rw [if_neg (by omega)] at hn
    have hrest : ∀ k, k ≠ n →
        (for_loop (eliminate_step min) n s).candidates k =
          if k < n + 1 ∧ (s.candidates k).votes = min then
            { s.candidates k with eliminated := true }
          else s.candidates k := by
      intro k hk
      rw [h4 k]
      by_cases hc : k < n ∧ (s.candidates k).votes = min
      · rw [if_pos hc, if_pos ⟨by omega, hc.2⟩]
      · rw [if_neg hc, if_neg fun h => hc ⟨by omega, h.2⟩]
    simp only [for_loop, eliminate_step, hn]
    by_cases hv : (s.candidates n).votes = min
    · simp only [hv, beq_self_eq_true, if_true]
      refine ⟨h1, h2, h3, fun k => ?_⟩
      by_cases hk : k = n
      · subst hk; simp [hv]
      · rw [set_candidate_candidates, if_neg hk, hrest k hk]
    · have hb : ((s.candidates n).votes == min) = false := by simpa using hv
      simp only [hb, Bool.false_eq_true, if_false]
      refine ⟨h1, h2, h3, fun k => ?_⟩
      by_cases hk : k = n
      · subst hk; rw [hn, if_neg fun h => hv h.2]
      · exact hrest k hk

theorem eliminate_candidates (s : State) (min : Int) (k : Nat) :
    (eliminate s min).candidates k =
      if k < s.candidate_count.toNat ∧ (s.candidates k).votes = min then
        { s.candidates k with eliminated := true }
      else s.candidates k :=
  (eliminate_upto s min _).2.2.2 k

theorem eliminate_frame (s : State) (min : Int) :
    (eliminate s min).preferences = s.preferences ∧
      (eliminate s min).voter_count = s.voter_count ∧
      (eliminate s min).candidate_count = s.candidate_count :=
  ⟨(eliminate_upto s min _).1, (eliminate_upto s min _).2.1, (eliminate_upto s min _).2.2.1⟩

theorem reset_votes_upto (s : State) (n : Nat) :
    (for_loop reset_step n s).preferences = s.preferences ∧
      (for_loop reset_step n s).voter_count = s.voter_count ∧
      (for_loop reset_step n s).candidate_count = s.candidate_count ∧
      ∀ k, (for_loop reset_step n s).candidates k =
        if k < n then { s.candidates k with votes := 0 } else s.candidates k := by
  induction n with
  | zero => simp [for_loop]
  | succ n ih =>
    obtain ⟨h1, h2, h3, h4⟩ := ih
    simp only [for_loop, reset_step]
    refine ⟨h1, h2, h3, fun k => ?_⟩
    have hn := h4 n
    rw [if_neg (by omega)] at hn
    by_cases hk : k = n
    · subst hk; simp [hn]
    · rw [set_candidate_candidates, if_neg hk, h4 k]
      by_cases hc : k < n
      · rw [if_pos hc, if_pos (by omega)]
      · rw [if_neg hc, if_neg (by omega)]

theorem reset_votes_candidates (s : State) (k : Nat) :
    (reset_votes s).candidates k =
      if k < s.candidate_count.toNat then { s.candidates k with votes := 0 }
      else s.candidates k :=
  (reset_votes_upto s _).2.2.2 k

theorem reset_votes_frame (s : State) :
    (reset_votes s).preferences = s.preferences ∧
      (reset_votes s).voter_count = s.voter_count ∧
      (reset_votes s).candidate_count = s.candidate_count :=
  ⟨(reset_votes_upto s _).1, (reset_votes_upto s _).2.1, (reset_votes_upto s _).2.2.1⟩

/-! ## print_winner -/

theorem print_winner_fst (s : State) : (print_winner s).1 = (winner_index s).isSome := by
  unfold print_winner
  cases winner_index s <;> rfl

theorem winner_index_some {s : State} {i : Nat} (h : winner_index s = some i) :
    i < s.candidate_count.toNat ∧ (s.candidates i).votes > s.voter_count.tdiv 2 ∧
      ∀ j, j < i → ¬ (s.candidates j).votes > s.voter_count.tdiv 2 := by
  obtain ⟨h1, h2, h3⟩ := first_index_some h
  exact ⟨h1, by simpa using h2, fun j hj => by simpa using h3 j hj⟩

theorem winner_index_isSome_iff (s : State) :
    (winner_index s).isSome = true ↔
      ∃ i, i < s.candidate_count.toNat ∧ (s.candidates i).votes > s.voter_count.tdiv 2 := by
  unfold winner_index
  rw [first_index_isSome_iff]
  simp

/-- C3. For `voter_count >= 0`, `print_winner` returns true if and only if
some candidate of the roster has votes strictly greater than
`floor(voter_count / 2)`, which is the same as votes `>= voter_count / 2 + 1`;
the candidate at which the loop returns is over the threshold and its name is
the line printed; the threshold is the `voter_count` of the state, which a
round that continues does not change; with `voter_count = 5` a candidate with
3 votes makes `print_winner` return true and a candidate with 2 votes is not
the one reported. -/
theorem print_winner_iff_majority (s : State) (hvoters : 0 ≤ s.voter_count) :
    ((print_winner s).1 = true ↔
      ∃ i, i < s.candidate_count.toNat ∧ (s.candidates i).votes > s.voter_count / 2) ∧
    (∀ v : Int, v > s.voter_count / 2 ↔ v ≥ s.voter_count / 2 + 1) ∧
    (∀ i, winner_index s = some i →
      (s.candidates i).votes > s.voter_count / 2 ∧
        print_winner s = (true, [(s.candidates i).name])) ∧
    (winner_index s = none → print_winner s = (false, [])) ∧
    (∀ m, (reset_votes (eliminate (tabulate s) m)).voter_count = s.voter_count) ∧
    (s.voter_count = 5 → ∀ i, i < s.candidate_count.toNat → (s.candidates i).votes = 3 →
      (print_winner s).1 = true) ∧
    (s.voter_count = 5 → ∀ i, (s.candidates i).votes = 2 → winner_index s ≠ some i) := by
  have hdiv : s.voter_count.tdiv 2 = s.voter_count / 2 :=
    Int.tdiv_eq_ediv hvoters (by decide)
  have hiff : (print_winner s).1 = true ↔
      ∃ i, i < s.candidate_count.toNat ∧ (s.candidates i).votes > s.voter_count / 2 := by
    rw [print_winner_fst, winner_index_isSome_iff, hdiv]
  refine ⟨hiff, fun v => by omega, fun i hi => ?_, fun h => ?_, fun m => ?_,
    fun h5 i hi hv => ?_, fun h5 i hv hw => ?_⟩
  · have := (winner_index_some hi).2.1
    rw [hdiv] at this
    exact ⟨this, by simp [print_winner, hi]⟩
  · simp [print_winner, h]
  · rw [(reset_votes_frame _).2.1, (eliminate_frame _ _).2.1, (tabulate_frame s).2.1]
  · rw [hiff]
    exact ⟨i, hi, by rw [hv, h5]; decide⟩
  · have := (winner_index_some hw).2.1
    rw [hdiv, hv, h5] at this
    revert this; decide

theorem print_winner_iff_majority_witness :
    (0 : Int) ≤ example_majority.voter_count ∧
    (((print_winner example_majority).1 = true ↔
      ∃ i, i < example_majority.candidate_count.toNat ∧
        (example_majority.candidates i).votes > example_majority.voter_count / 2) ∧
    (∀ v : Int, v > example_majority.voter_count / 2 ↔
      v ≥ example_majority.voter_count / 2 + 1) ∧
    (∀ i, winner_index example_majority = some i →
      (example_majority.candidates i).votes > example_majority.voter_count / 2 ∧
        print_winner example_majority = (true, [(example_majority.candidates i).name])) ∧
    (winner_index example_majority = none → print_winner example_majority = (false, [])) ∧
    (∀ m, (reset_votes (eliminate (tabulate example_majority) m)).voter_count =
      example_majority.voter_count) ∧
    (example_majority.voter_count = 5 → ∀ i, i < example_majority.candidate_count.toNat →
      (example_majority.candidates i).votes = 3 → (print_winner example_majority).1 = true) ∧
    (example_majority.voter_count = 5 → ∀ i, (example_majority.candidates i).votes = 2 →
      winner_index example_majority ≠ some i)) :=
  ⟨by decide, print_winner_iff_majority example_majority (by decide)⟩

/-! ## At most one candidate holds a majority -/

theorem countP_add_le_of_disjoint {α : Type} (p q : α → Bool) (l : List α)
    (h : ∀ x, p x = true → q x = true → False) :
    l.countP p + l.countP q ≤ l.length := by
  induction l with
  | nil => simp
  | cons x l ih =>
    rw [List.countP_cons, List.countP_cons, List.length_cons]
    cases hp : p x <;> cases hq : q x
    · simp; omega
    · simp; omega
    · simp; omega
    · exact absurd hq (fun hq => h x hp hq)

theorem ballots_for_add_le (s : State) {c d : Nat} (hcd : c ≠ d) :
    ballots_for s c + ballots_for s d ≤ s.voter_count.toNat := by
  unfold ballots_for
  have := countP_add_le_of_disjoint (fun i => decide (top_choice s i = some c))
    (fun i => decide (top_choice s i = some d)) (List.range s.voter_count.toNat)
    (fun i hc hd => by
      simp only [decide_eq_true_eq] at hc hd
      rw [hc] at hd
      exact hcd (Option.some.inj hd))
  rwa [List.length_range] at this

theorem tabulate_majority_unique (s : State) (hvoters : 0 ≤ s.voter_count)
    (hzero : zero_votes s) (c d : Nat) (hc : c < s.candidate_count.toNat)
    (hd : d < s.candidate_count.toNat)
    (hcv : ((tabulate s).candidates c).votes > s.voter_count / 2)
    (hdv : ((tabulate s).candidates d).votes > s.voter_count / 2) : c = d := by
  by_contra hcd
  rw [tabulate_votes, hzero c hc] at hcv
  rw [tabulate_votes, hzero d hd] at hdv
  have := ballots_for_add_le s hcd
  omega

/-- C4. In the state `tabulate` produces from all-zero votes for a number of
voters that is not negative, at most one candidate of the roster has votes
greater than `floor(voter_count / 2)`; so the candidate at which
`print_winner` returns is the only candidate over the threshold. -/
theorem majority_holder_unique (s : State) (hvoters : 0 ≤ s.voter_count)
    (hzero : zero_votes s) :
    (∀ c d, c < s.candidate_count.toNat → d < s.candidate_count.toNat →
      ((tabulate s).candidates c).votes > s.voter_count / 2 →
      ((tabulate s).candidates d).votes > s.voter_count / 2 → c = d) ∧
    (∀ i, winner_index (tabulate s) = some i →
      ∀ c, c < s.candidate_count.toNat →
        ((tabulate s).candidates c).votes > s.voter_count / 2 → c = i) := by
  refine ⟨tabulate_majority_unique s hvoters hzero, fun i hi c hc hcv => ?_⟩
  obtain ⟨h1, h2, _⟩ := winner_index_some hi
  rw [(tabulate_frame s).2.2.1] at h1
  rw [(tabulate_frame s).2.1, Int.tdiv_eq_ediv hvoters (by decide)] at h2
  exact tabulate_majority_unique s hvoters hzero c i hc h1 hcv h2

theorem majority_holder_unique_witness :
    (0 : Int) ≤ example_first_round.voter_count ∧ zero_votes example_first_round ∧
    ((∀ c d, c < example_first_round.candidate_count.toNat →
      d < example_first_round.candidate_count.toNat →
      ((tabulate example_first_round).candidates c).votes >
        example_first_round.voter_count / 2 →
      ((tabulate example_first_round).candidates d).votes >
        example_first_round.voter_count / 2 → c = d) ∧
    (∀ i, winner_index (tabulate example_first_round) = some i →
      ∀ c, c < example_first_round.candidate_count.toNat →
        ((tabulate example_first_round).candidates c).votes >
          example_first_round.voter_count / 2 → c = i)) :=
  ⟨by decide, by decide, majority_holder_unique example_first_round (by decide) (by decide)⟩

/-! ## find_min -/

theorem find_min_upto (s : State) (n : Nat) :
    for_loop (find_min_step s) n s.voter_count ≤ s.voter_count ∧
    (∀ c, c < n → (s.candidates c).eliminated = false →
      for_loop (find_min_step s) n s.voter_count ≤ (s.candidates c).votes) ∧
    (for_loop (find_min_step s) n s.voter_count = s.voter_count ∨
      ∃ c, c < n ∧ (s.candidates c).eliminated = false ∧
        (s.candidates c).votes = for_loop (find_min_step s) n s.voter_count) := by
  induction n with
  | zero => exact ⟨le_refl _, fun c hc => by omega, Or.inl rfl⟩
  | succ n ih =>
    obtain ⟨h1, h2, h3⟩ := ih
    simp only [for_loop, find_min_step]
    by_cases hc : (s.candidates n).eliminated = false ∧
        (s.candidates n).votes < for_loop (find_min_step s) n s.voter_count
    · have hif : (!(s.candidates n).eliminated &&
          decide ((s.candidates n).votes < for_loop (find_min_step s) n s.voter_count)) = true := by
        simp [hc.1, hc.2]
      rw [if_pos hif]
      refine ⟨by omega, fun c hcn he => ?_, Or.inr ⟨n, by omega, hc.1, rfl⟩⟩
      by_cases hcn' : c = n
      · subst hcn'; exact le_refl _
      · have := h2 c (by omega) he; omega
    · have hif : ¬ (!(s.candidates n).eliminated &&
          decide ((s.candidates n).votes < for_loop (find_min_step s) n s.voter_count)) = true := by
        intro h
        simp only [Bool.and_eq_true, Bool.not_eq_true', decide_eq_true_eq] at h
        exact hc h
      rw [if_neg hif]
      refine ⟨h1, fun c hcn he => ?_, ?_⟩
      · by_cases hcn' : c = n
        · subst hcn'
          by_contra hlt
          exact hc ⟨he, by omega⟩
        · exact h2 c (by omega) he
      · rcases h3 with h3 | ⟨c, hcn, he, hv⟩
        · exact Or.inl h3
        · exact Or.inr ⟨c, by omega, he, hv⟩

theorem find_min_le (s : State) {c : Nat} (hc : c < s.candidate_count.toNat)
    (he : (s.candidates c).eliminated = false) : find_min s ≤ (s.candidates c).votes :=
  (find_min_upto s _).2.1 c hc he

theorem find_min_attained (s : State)
    (hlive : ∃ c, c < s.candidate_count.toNat ∧ (s.candidates c).eliminated = false)
    (hbound : ∀ c, c < s.candidate_count.toNat → (s.candidates c).eliminated = false →
      (s.candidates c).votes ≤ s.voter_count) :
    ∃ c, c < s.candidate_count.toNat ∧ (s.candidates c).eliminated = false ∧
      (s.candidates c).votes = find_min s := by
  rcases (find_min_upto s s.candidate_count.toNat).2.2 with h | h
  · obtain ⟨c, hc, he⟩ := hlive
    refine ⟨c, hc, he, ?_⟩
    have h1 := find_min_le s hc he
    have h2 := hbound c hc he
    have h3 : find_min s = s.voter_count := h
    omega
  · exact h

theorem find_min_congr (s t : State) (n : Nat) (hv : t.voter_count = s.voter_count)
    (h : ∀ c, c < n → (t.candidates c).eliminated = (s.candidates c).eliminated ∧
      ((s.candidates c).eliminated = false → (t.candidates c).votes = (s.candidates c).votes)) :
    for_loop (find_min_step t) n t.voter_count = for_loop (find_min_step s) n s.voter_count := by
  induction n with
  | zero => exact hv
  | succ n ih =>
    simp only [for_loop, find_min_step]
    rw [ih fun c hc => h c (by omega), (h n (by omega)).1]
    cases he : (s.candidates n).eliminated
    · rw [(h n (by omega)).2 he]
    · simp

/-- C5. When some candidate of the roster is not eliminated and no
non-eliminated candidate holds more than `voter_count` votes, `find_min`
returns a value held by a non-eliminated candidate and at most the votes of
every non-eliminated candidate; the result is the same in any state that
agrees on the counters, the flags and the votes of the non-eliminated
candidates, whatever the votes of the eliminated ones. -/
theorem find_min_least_of_remaining (s : State)
    (hlive : ∃ c, c < s.candidate_count.toNat ∧ (s.candidates c).eliminated = false)
    (hbound : ∀ c, c < s.candidate_count.toNat → (s.candidates c).eliminated = false →
      (s.candidates c).votes ≤ s.voter_count) :
    (∃ c, c < s.candidate_count.toNat ∧ (s.candidates c).eliminated = false ∧
      (s.candidates c).votes = find_min s) ∧
    (∀ c, c < s.candidate_count.toNat → (s.candidates c).eliminated = false →
      find_min s ≤ (s.candidates c).votes) ∧
    (∀ t : State, t.voter_count = s.voter_count → t.candidate_count = s.candidate_count →
      (∀ c, c < s.candidate_count.toNat →
        (t.candidates c).eliminated = (s.candidates c).eliminated ∧
        ((s.candidates c).eliminated = false →
          (t.candidates c).votes = (s.candidates c).votes)) →
      find_min t = find_min s) := by
  refine ⟨find_min_attained s hlive hbound, fun c hc he => find_min_le s hc he,
    fun t hv hcc h => ?_⟩
  unfold find_min
  rw [hcc]
  exact find_min_congr s t _ hv h

theorem find_min_least_of_remaining_witness :
    (∃ c, c < example_min.candidate_count.toNat ∧ (example_min.candidates c).eliminated = false) ∧
    (∀ c, c < example_min.candidate_count.toNat → (example_min.candidates c).eliminated = false →
      (example_min.candidates c).votes ≤ example_min.voter_count) ∧
    ((∃ c, c < example_min.candidate_count.toNat ∧ (example_min.candidates c).eliminated = false ∧
      (example_min.candidates c).votes = find_min example_min) ∧
    (∀ c, c < example_min.candidate_count.toNat → (example_min.candidates c).eliminated = false →
      find_min example_min ≤ (example_min.candidates c).votes) ∧
    (∀ t : State, t.voter_count = example_min.voter_count →
      t.candidate_count = example_min.candidate_count →
      (∀ c, c < example_min.candidate_count.toNat →
        (t.candidates c).eliminated = (example_min.candidates c).eliminated ∧
        ((example_min.candidates c).eliminated = false →
          (t.candidates c).votes = (example_min.candidates c).votes)) →
      find_min t = find_min example_min)) :=
  ⟨by decide, by decide,
    find_min_least_of_remaining example_min (by decide) (by decide)⟩

/-! ## is_tie -/

theorem is_tie_counters_upto (s : State) (min : Int) (n : Nat) :
    for_loop (is_tie_step s min) n (0, 0) =
      ((((List.range n).countP fun c => !(s.candidates c).eliminated : Nat) : Int),
        (((List.range n).countP fun c =>
          !(s.candidates c).eliminated && (s.candidates c).votes == min : Nat) : Int)) := by
  induction n with
  | zero => rfl
  | succ n ih =>
    rw [for_loop, ih, List.range_succ, List.countP_append, List.countP_append]
    unfold is_tie_step
    cases he : (s.candidates n).eliminated
    · by_cases hv : (s.candidates n).votes = min
      · simp [he, hv]
      · have hb : ((s.candidates n).votes == min) = false := by simpa using hv
        simp [he, hv]
    · simp [he]

theorem is_tie_counters_eq (s : State) (min : Int) :
    is_tie_counters s min = ((remaining_count s : Int), (min_count s min : Int)) :=
  is_tie_counters_upto s min _

/-- The candidates counted twice are all of those counted once exactly when
every one counted once has the wanted votes. -/
theorem countP_and_eq_iff (p q : Nat → Bool) (n : Nat) :
    (List.range n).countP p = (List.range n).countP (fun c => p c && q c) ↔
      ∀ c, c < n → p c = true → q c = true := by
  have hle : ∀ m, (List.range m).countP (fun c => p c && q c) ≤ (List.range m).countP p := by
    intro m
    apply List.countP_mono_left
    intro x _ hx
    simp only [Bool.and_eq_true] at hx
    exact hx.1
  induction n with
  | zero => simp
  | succ n ih =>
    rw [List.range_succ, List.countP_append, List.countP_append]
    have hn := hle n
    constructor
    · intro h c hc hp
      by_cases hcn : c = n
      · subst hcn
        by_contra hq
        have hq' : q c = false := by simpa using hq
        simp [hp, hq'] at h
        omega
      · refine ih.mp ?_ c (by omega) hp
        cases hpn : p n <;> cases hqn : q n <;> simp [hpn, hqn] at h <;> omega
    · intro h
      have h1 := ih.mpr fun c hc hp => h c (by omega) hp
      cases hpn : p n
      · simp [hpn, h1]
      · have := h n (by omega) hpn
        simp [hpn, this, h1]

theorem is_tie_iff_counts (s : State) (min : Int) :
    is_tie s min = true ↔ remaining_count s = min_count s min := by
  unfold is_tie
  rw [is_tie_counters_eq]
  simp

theorem is_tie_iff_forall (s : State) (min : Int) :
    is_tie s min = true ↔
      ∀ c, c < s.candidate_count.toNat → (s.candidates c).eliminated = false →
        (s.candidates c).votes = min := by
  rw [is_tie_iff_counts]
  unfold remaining_count min_count
  rw [countP_and_eq_iff (fun c => !(s.candidates c).eliminated)
    (fun c => (s.candidates c).votes == min)]
  simp

/-- C6. `is_tie(min)` returns true if and only if the number of candidates
that are not eliminated equals the number of candidates that are not
eliminated and hold `min` votes, that is, if and only if every candidate of
the roster that is not eliminated holds `min` votes; the two counters of the
function are these two numbers. -/
theorem is_tie_iff_all_remaining_at_min (s : State) (min : Int) :
    is_tie_counters s min = ((remaining_count s : Int), (min_count s min : Int)) ∧
    (is_tie s min = true ↔ remaining_count s = min_count s min) ∧
    (is_tie s min = true ↔
      ∀ c, c < s.candidate_count.toNat → (s.candidates c).eliminated = false →
        (s.candidates c).votes = min) :=
  ⟨is_tie_counters_eq s min, is_tie_iff_counts s min, is_tie_iff_forall s min⟩

/-! ## eliminate -/

/-- C7. After `eliminate(min)` a candidate of the roster is eliminated if and
only if it was eliminated before or its votes equal `min`; no name, no vote
counter, no ballot and neither counter changes, and the cells outside the
roster are untouched. -/
theorem eliminate_marks_exactly_min (s : State) (min : Int) :
    (∀ c, c < s.candidate_count.toNat →
      (((eliminate s min).candidates c).eliminated = true ↔
        ((s.candidates c).eliminated = true ∨ (s.candidates c).votes = min))) ∧
    (∀ c, ((eliminate s min).candidates c).name = (s.candidates c).name ∧
      ((eliminate s min).candidates c).votes = (s.candidates c).votes) ∧
    (∀ c, s.candidate_count.toNat ≤ c → (eliminate s min).candidates c = s.candidates c) ∧
    (eliminate s min).preferences = s.preferences ∧
    (eliminate s min).voter_count = s.voter_count ∧
    (eliminate s min).candidate_count = s.candidate_count := by
  refine ⟨fun c hc => ?_, fun c => ?_, fun c hc => ?_, (eliminate_frame s min).1,
    (eliminate_frame s min).2.1, (eliminate_frame s min).2.2⟩
  · rw [eliminate_candidates]
    by_cases hv : (s.candidates c).votes = min
    · rw [if_pos ⟨hc, hv⟩]; simp [hv]
    · rw [if_neg fun h => hv h.2]; simp [hv]
  · rw [eliminate_candidates]
    split <;> exact ⟨rfl, rfl⟩
  · rw [eliminate_candidates, if_neg fun h => by omega]

/-! ## The eliminated flag never reverts -/

theorem eliminated_grows_refl (s : State) : eliminated_grows s s := fun _ h => h

theorem eliminated_grows_trans {s t u : State} (h1 : eliminated_grows s t)
    (h2 : eliminated_grows t u) : eliminated_grows s u := fun c h => h2 c (h1 c h)

theorem vote_candidates (s : State) (voter rank : Nat) (name : String) :
    (vote s voter rank name).2.candidates = s.candidates := by
  unfold vote
  cases first_index (fun i => name == (s.candidates i).name) s.candidate_count.toNat <;> rfl

theorem tabulate_eliminated_grows (s : State) : eliminated_grows s (tabulate s) :=
  fun c h => by rw [((tabulate_frame s).2.2.2 c).1]; exact h

theorem eliminate_eliminated_grows (s : State) (min : Int) :
    eliminated_grows s (eliminate s min) := by
  intro c h
  rw [eliminate_candidates]
  split
  · rfl
  · exact h

theorem reset_votes_eliminated (s : State) (c : Nat) :
    ((reset_votes s).candidates c).eliminated = (s.candidates c).eliminated := by
  rw [reset_votes_candidates]
  split <;> rfl

theorem reset_votes_eliminated_grows (s : State) : eliminated_grows s (reset_votes s) :=
  fun c h => by rw [reset_votes_eliminated]; exact h

theorem round_continue {s t : State} (h : round s = RoundResult.CONTINUE t) :
    (print_winner (tabulate s)).1 = false ∧
      is_tie (tabulate s) (find_min (tabulate s)) = false ∧
      t = reset_votes (eliminate (tabulate s) (find_min (tabulate s))) := by
  unfold round at h
  simp only at h
  by_cases hw : (print_winner (tabulate s)).1 = true
  · rw [if_pos hw] at h; cases h
  · rw [if_neg hw] at h
    by_cases ht : is_tie (tabulate s) (find_min (tabulate s)) = true
    · rw [if_pos ht] at h; cases h
    · rw [if_neg ht] at h
      injection h with h
      exact ⟨by simpa using hw, by simpa using ht, h.symm⟩

theorem round_eliminated_grows {s t : State} (h : round s = RoundResult.CONTINUE t) :
    eliminated_grows s t := by
  rw [(round_continue h).2.2]
  exact eliminated_grows_trans (tabulate_eliminated_grows s)
    (eliminated_grows_trans (eliminate_eliminated_grows _ _) (reset_votes_eliminated_grows _))

theorem round_terminal_state (s : State) :
    (∀ out t, round s = RoundResult.WINNER_FOUND out t → t = tabulate s) ∧
    (∀ out t, round s = RoundResult.ALL_TIED out t → t = tabulate s) := by
  unfold round
  simp only
  constructor <;> intro out t h
  · split at h
    · injection h with _ h2; exact h2.symm
    · split at h <;> cases h
  · split at h
    · cases h
    · split at h
      · injection h with _ h2; exact h2.symm
      · cases h

theorem round_loop_eliminated_grows (fuel : Nat) (s : State) (f : Finished)
    (h : round_loop fuel s = some f) : eliminated_grows s f.state := by
  induction fuel generalizing s f with
  | zero => cases h
  | succ fuel ih =>
    rw [round_loop] at h
    cases hr : round s with
    | WINNER_FOUND out t =>
      rw [hr] at h
      simp only [Option.some.injEq] at h
      subst h
      rw [(round_terminal_state s).1 out t hr]
      exact tabulate_eliminated_grows s
    | ALL_TIED out t =>
      rw [hr] at h
      simp only [Option.some.injEq] at h
      subst h
      rw [(round_terminal_state s).2 out t hr]
      exact tabulate_eliminated_grows s
    | CONTINUE t =>
      rw [hr] at h
      simp only [Option.map_eq_some'] at h
      obtain ⟨g, hg, rfl⟩ := h
      exact eliminated_grows_trans (round_eliminated_grows hr) (ih t g hg)

/-- C8. No operation of the resolver turns an eliminated flag from true to
false: not `vote`, `tabulate`, `eliminate` or the vote reset (`print_winner`,
`find_min` and `is_tie` return a value and leave the state alone), hence not a
round, and every candidate eliminated when the round loop is entered is
eliminated in every state the loop reaches and in the state it stops in. -/
theorem eliminated_never_reverts :
    (∀ s voter rank name, eliminated_grows s (vote s voter rank name).2) ∧
    (∀ s, eliminated_grows s (tabulate s)) ∧
    (∀ s min, eliminated_grows s (eliminate s min)) ∧
    (∀ s, eliminated_grows s (reset_votes s)) ∧
    (∀ s t, round s = RoundResult.CONTINUE t → eliminated_grows s t) ∧
    (∀ s0 s, reachable s0 s → eliminated_grows s0 s) ∧
    (∀ fuel s f, round_loop fuel s = some f → eliminated_grows s f.state) := by
  refine ⟨fun s voter rank name c h => by rw [vote_candidates]; exact h,
    tabulate_eliminated_grows, eliminate_eliminated_grows, reset_votes_eliminated_grows,
    fun s t h => round_eliminated_grows h, fun s0 s h => ?_, round_loop_eliminated_grows⟩
  induction h with
  | start => exact eliminated_grows_refl s0
  | next _ hr ih => exact eliminated_grows_trans ih (round_eliminated_grows hr)

/-! ## An elimination round shrinks the set of remaining candidates -/

theorem countP_range_lt (p q : Nat → Bool) (n : Nat)
    (himp : ∀ c, c < n → q c = true → p c = true)
    (hex : ∃ c, c < n ∧ p c = true ∧ q c = false) :
    (List.range n).countP q < (List.range n).countP p := by
  induction n with
  | zero => obtain ⟨c, hc, _⟩ := hex; omega
  | succ n ih =>
    rw [List.range_succ, List.countP_append, List.countP_append]
    have hle : (List.range n).countP q ≤ (List.range n).countP p := by
      apply List.countP_mono_left
      intro x hx hq
      exact himp x (by have := List.mem_range.mp hx; omega) hq
    obtain ⟨c, hc, hp, hq⟩ := hex
    by_cases hcn : c = n
    · subst hcn
      simp [hp, hq]
      omega
    · have := ih (fun c hc => himp c (by omega)) ⟨c, by omega, hp, hq⟩
      cases hqn : q n
      · cases hpn : p n <;> simp [hqn, hpn] <;> omega
      · have := himp n (by omega) hqn
        simp [hqn, this]
        omega

theorem eliminate_eliminated (s : State) (min : Int) (c : Nat) :
    ((eliminate s min).candidates c).eliminated =
      ((s.candidates c).eliminated ||
        (decide (c < s.candidate_count.toNat) && decide ((s.candidates c).votes = min))) := by
  rw [eliminate_candidates]
  by_cases h : c < s.candidate_count.toNat ∧ (s.candidates c).votes = min
  · rw [if_pos h]; simp [h.1, h.2]
  · rw [if_neg h]
    have : (decide (c < s.candidate_count.toNat) && decide ((s.candidates c).votes = min)) =
        false := by simpa using h
    rw [this, Bool.or_false]

theorem not_tie_exists (s : State) (min : Int) (h : is_tie s min = false) :
    ∃ c, c < s.candidate_count.toNat ∧ (s.candidates c).eliminated = false ∧
      (s.candidates c).votes ≠ min := by
  by_contra hno
  have : is_tie s min = true := by
    rw [(is_tie_iff_forall s min)]
    intro c hc he
    by_contra hv
    exact hno ⟨c, hc, he, hv⟩
  rw [this] at h
  cases h

theorem eliminate_shrinks (s : State)
    (hbound : ∀ c, c < s.candidate_count.toNat → (s.candidates c).eliminated = false →
      (s.candidates c).votes ≤ s.voter_count)
    (htie : is_tie s (find_min s) = false) :
    remaining_count (eliminate s (find_min s)) < remaining_count s ∧
      1 ≤ remaining_count (eliminate s (find_min s)) := by
  obtain ⟨c, hc, he, hv⟩ := not_tie_exists s _ htie
  obtain ⟨d, hd, hde, hdv⟩ := find_min_attained s ⟨c, hc, he⟩ hbound
  unfold remaining_count
  rw [(eliminate_frame s _).2.2]
  constructor
  · apply countP_range_lt
    · intro x _ hx
      rw [eliminate_eliminated] at hx
      simp only [Bool.not_eq_true', Bool.or_eq_false_iff] at hx
      simp [hx.1]
    · refine ⟨d, hd, by simp [hde], ?_⟩
      rw [eliminate_eliminated]
      simp [hd, hdv]
  · apply List.countP_pos_iff.mpr
    refine ⟨c, List.mem_range.mpr hc, ?_⟩
    rw [eliminate_eliminated]
    simp [he, hv]

/-- C9. In a state in which no non-eliminated candidate holds more than
`voter_count` votes, if `is_tie(find_min())` is false then after
`eliminate(find_min())` strictly fewer candidates of the roster are
non-eliminated than before. -/
theorem elimination_round_shrinks (s : State)
    (hbound : ∀ c, c < s.candidate_count.toNat → (s.candidates c).eliminated = false →
      (s.candidates c).votes ≤ s.voter_count)
    (htie : is_tie s (find_min s) = false) :
    remaining_count (eliminate s (find_min s)) < remaining_count s :=
  (eliminate_shrinks s hbound htie).1

theorem elimination_round_shrinks_witness :
    (∀ c, c < example_min.candidate_count.toNat → (example_min.candidates c).eliminated = false →
      (example_min.candidates c).votes ≤ example_min.voter_count) ∧
    is_tie example_min (find_min example_min) = false ∧
    remaining_count (eliminate example_min (find_min example_min)) <
      remaining_count example_min :=
  ⟨by decide, by decide, elimination_round_shrinks example_min (by decide) (by decide)⟩

/-! ## Termination of the round loop -/

theorem remaining_count_congr {s t : State} (hcc : t.candidate_count = s.candidate_count)
    (hflags : ∀ c, (t.candidates c).eliminated = (s.candidates c).eliminated) :
    remaining_count t = remaining_count s := by
  unfold remaining_count
  have : (fun c => !(t.candidates c).eliminated) = fun c => !(s.candidates c).eliminated :=
    funext fun c => by rw [hflags c]
  rw [hcc, this]

theorem ballots_for_le (s : State) (c : Nat) : ballots_for s c ≤ s.voter_count.toNat := by
  unfold ballots_for
  have := List.countP_le_length (fun i => decide (top_choice s i = some c))
    (l := List.range s.voter_count.toNat)
  rwa [List.length_range] at this

theorem tabulate_votes_le (s : State) (hvoters : 0 ≤ s.voter_count) (hzero : zero_votes s)
    (c : Nat) (hc : c < s.candidate_count.toNat) :
    ((tabulate s).candidates c).votes ≤ s.voter_count := by
  rw [tabulate_votes, hzero c hc]
  have := ballots_for_le s c
  omega

theorem nobody_eliminated_remaining (s : State) (h : nobody_eliminated s) :
    remaining_count s = s.candidate_count.toNat := by
  unfold remaining_count
  rw [List.countP_eq_length.mpr, List.length_range]
  intro c hc
  simp [h c (List.mem_range.mp hc)]

/-- A round that continues leaves the loop ready for the next round, with
fewer candidates in the race but at least one. -/
theorem round_ready_step {s t : State} (hs : round_ready s)
    (hr : round s = RoundResult.CONTINUE t) :
    round_ready t ∧ t.candidate_count = s.candidate_count ∧
      remaining_count t < remaining_count s ∧ 1 ≤ remaining_count t := by
  obtain ⟨hvoters, hvalid, hzero⟩ := hs
  obtain ⟨_, htie, rfl⟩ := round_continue hr
  obtain ⟨hp, hv, hcc, hfl⟩ := tabulate_frame s
  have hbound : ∀ c, c < (tabulate s).candidate_count.toNat →
      ((tabulate s).candidates c).eliminated = false →
      ((tabulate s).candidates c).votes ≤ (tabulate s).voter_count := by
    intro c hc _
    rw [hv]
    rw [hcc] at hc
    exact tabulate_votes_le s hvoters hzero c hc
  obtain ⟨hlt, hpos⟩ := eliminate_shrinks (tabulate s) hbound htie
  obtain ⟨ep, ev, ecc⟩ := eliminate_frame (tabulate s) (find_min (tabulate s))
  obtain ⟨rp, rv, rcc⟩ := reset_votes_frame (eliminate (tabulate s) (find_min (tabulate s)))
  have hrem : remaining_count (reset_votes (eliminate (tabulate s) (find_min (tabulate s)))) =
      remaining_count (eliminate (tabulate s) (find_min (tabulate s))) :=
    remaining_count_congr rcc (reset_votes_eliminated _)
  have hrem' : remaining_count (tabulate s) = remaining_count s :=
    remaining_count_congr hcc fun c => (hfl c).1
  refine ⟨⟨by rw [rv, ev, hv]; exact hvoters, ?_, ?_⟩, by rw [rcc, ecc, hcc], by omega, by omega⟩
  · intro i hi j hj
    rw [rp, ep, hp, rcc, ecc, hcc]
    rw [rv, ev, hv] at hi
    rw [rcc, ecc, hcc] at hj
    exact hvalid i hi j hj
  · intro c hc
    rw [reset_votes_candidates, if_pos (by rwa [rcc] at hc)]

theorem round_loop_succ (fuel : Nat) (s : State) (f : Finished)
    (h : round_loop fuel s = some f) : round_loop (fuel + 1) s = some f := by
  induction fuel generalizing s f with
  | zero => cases h
  | succ fuel ih =>
    rw [round_loop] at h
    rw [round_loop]
    cases hr : round s with
    | WINNER_FOUND out t => rw [hr] at h; exact h
    | ALL_TIED out t => rw [hr] at h; exact h
    | CONTINUE t =>
      rw [hr] at h
      simp only [Option.map_eq_some'] at h
      obtain ⟨g, hg, rfl⟩ := h
      simp only [ih t g hg, Option.map_some']

theorem round_loop_mono {k fuel : Nat} (hk : k ≤ fuel) (s : State) (f : Finished)
    (h : round_loop k s = some f) : round_loop fuel s = some f := by
  induction fuel with
  | zero =>
    have : k = 0 := by omega
    subst this; exact h
  | succ fuel ih =>
    by_cases hkf : k = fuel + 1
    · subst hkf; exact h
    · exact round_loop_succ fuel s f (ih (by omega))

theorem round_loop_within (k : Nat) (s : State) (hs : round_ready s)
    (hrem : remaining_count s ≤ k + 1) :
    ∃ f, round_loop (k + 1) s = some f ∧ 1 ≤ f.rounds ∧ f.rounds ≤ k + 1 := by
  induction k generalizing s with
  | zero =>
    rw [round_loop]
    cases hr : round s with
    | WINNER_FOUND out t => exact ⟨_, rfl, le_refl _, le_refl _⟩
    | ALL_TIED out t => exact ⟨_, rfl, le_refl _, le_refl _⟩
    | CONTINUE t =>
      obtain ⟨_, _, h1, h2⟩ := round_ready_step hs hr
      omega
  | succ k ih =>
    rw [round_loop]
    cases hr : round s with
    | WINNER_FOUND out t => exact ⟨_, rfl, le_refl _, by simp⟩
    | ALL_TIED out t => exact ⟨_, rfl, le_refl _, by simp⟩
    | CONTINUE t =>
      obtain ⟨ht, _, h1, _⟩ := round_ready_step hs hr
      obtain ⟨g, hg, hg1, hg2⟩ := ih t ht (by omega)
      refine ⟨{ g with rounds := g.rounds + 1 }, ?_, ?_, ?_⟩
      · simp only [hg, Option.map_some']
      · simp
      · simp only [add_le_add_iff_right]; exact hg2

theorem reachable_ready {s0 s : State} (h0 : round_ready s0) (h : reachable s0 s) :
    round_ready s := by
  induction h with
  | start => exact h0
  | next _ hr ih => exact (round_ready_step ih hr).1

/-- C10. For a roster of `candidate_count >= 1` candidates none of whom is
eliminated, `voter_count >= 0` ballots holding roster indices and all votes at
0, the round loop stops (in WINNER_FOUND or ALL_TIED) after at least one and
at most `candidate_count` rounds, whatever larger bound on the rounds it is
run with; and every round of the run that does not stop strictly reduces the
number of non-eliminated candidates. -/
theorem round_loop_terminates (s : State) (hcand : 1 ≤ s.candidate_count)
    (hvoters : 0 ≤ s.voter_count) (hvalid : valid_indices s) (hzero : zero_votes s)
    (hnobody : nobody_eliminated s) :
    (∃ f, round_loop s.candidate_count.toNat s = some f ∧ 1 ≤ f.rounds ∧
      f.rounds ≤ s.candidate_count.toNat ∧
      ∀ fuel, s.candidate_count.toNat ≤ fuel → round_loop fuel s = some f) ∧
    (∀ u t, reachable s u → round u = RoundResult.CONTINUE t →
      remaining_count t < remaining_count u) := by
  have hready : round_ready s := ⟨hvoters, hvalid, hzero⟩
  constructor
  · obtain ⟨k, hk⟩ : ∃ k, s.candidate_count.toNat = k + 1 := ⟨s.candidate_count.toNat - 1, by omega⟩
    obtain ⟨f, hf, h1, h2⟩ := round_loop_within k s hready
      (by rw [nobody_eliminated_remaining s hnobody]; omega)
    rw [hk]
    exact ⟨f, hf, h1, h2, fun fuel hfuel => round_loop_mono hfuel s f hf⟩
  · intro u t hu hr
    exact (round_ready_step (reachable_ready hready hu) hr).2.2.1

theorem round_loop_terminates_witness :
    (1 : Int) ≤ example_election.candidate_count ∧ (0 : Int) ≤ example_election.voter_count ∧
    valid_indices example_election ∧ zero_votes example_election ∧
    nobody_eliminated example_election ∧
    ((∃ f, round_loop example_election.candidate_count.toNat example_election = some f ∧
      1 ≤ f.rounds ∧ f.rounds ≤ example_election.candidate_count.toNat ∧
      ∀ fuel, example_election.candidate_count.toNat ≤ fuel →
        round_loop fuel example_election = some f) ∧
    (∀ u t, reachable example_election u → round u = RoundResult.CONTINUE t →
      remaining_count t < remaining_count u)) :=
  ⟨by decide, by decide, by decide, by decide, by decide,
    round_loop_terminates example_election (by decide) (by decide) (by decide) (by decide)
      (by decide)⟩

/-! ## The round loop never eliminates everyone -/

theorem remaining_count_pos_iff (s : State) :
    1 ≤ remaining_count s ↔
      ∃ c, c < s.candidate_count.toNat ∧ (s.candidates c).eliminated = false := by
  unfold remaining_count
  rw [Nat.succ_le_iff, List.countP_pos_iff]
  constructor
  · rintro ⟨c, hc, he⟩
    exact ⟨c, List.mem_range.mp hc, by simpa using he⟩
  · rintro ⟨c, hc, he⟩
    exact ⟨c, List.mem_range.mpr hc, by simp [he]⟩

/-- Whoever is not eliminated and holds other than `min` votes stays in the
race when `eliminate(min)` runs. -/
theorem eliminate_survivor (s : State) (min : Int) (h : is_tie s min = false) :
    1 ≤ remaining_count (eliminate s min) := by
  obtain ⟨c, hc, he, hv⟩ := not_tie_exists s min h
  rw [remaining_count_pos_iff, (eliminate_frame s min).2.2]
  refine ⟨c, hc, ?_⟩
  rw [eliminate_eliminated]
  simp [he, hv]

theorem round_survivor {s t : State} (hr : round s = RoundResult.CONTINUE t) :
    t.candidate_count = s.candidate_count ∧ 1 ≤ remaining_count t ∧
      1 ≤ remaining_count (eliminate (tabulate s) (find_min (tabulate s))) := by
  obtain ⟨_, htie, rfl⟩ := round_continue hr
  have h := eliminate_survivor (tabulate s) _ htie
  refine ⟨?_, ?_, h⟩
  · rw [(reset_votes_frame _).2.2, (eliminate_frame _ _).2.2, (tabulate_frame s).2.2.1]
  · rw [remaining_count_congr (reset_votes_frame _).2.2 (reset_votes_eliminated _)]
    exact h

theorem reachable_head {s t u : State} (hr : round s = RoundResult.CONTINUE t)
    (h : reachable t u) : reachable s u := by
  induction h with
  | start => exact reachable.next reachable.start hr
  | next _ hr' ih => exact reachable.next ih hr'

/-- The state in which the round loop stops is the tabulation of a state at
the head of a round. -/
theorem round_loop_final (fuel : Nat) (s : State) (f : Finished)
    (h : round_loop fuel s = some f) :
    ∃ u, reachable s u ∧ f.state = tabulate u ∧
      ((f.won = true ∧ round u = RoundResult.WINNER_FOUND f.out f.state) ∨
        (f.won = false ∧ round u = RoundResult.ALL_TIED f.out f.state)) := by
  induction fuel generalizing s f with
  | zero => cases h
  | succ fuel ih =>
    rw [round_loop] at h
    cases hr : round s with
    | WINNER_FOUND out t =>
      rw [hr] at h
      simp only [Option.some.injEq] at h
      subst h
      exact ⟨s, reachable.start, (round_terminal_state s).1 out t hr, Or.inl ⟨rfl, hr⟩⟩
    | ALL_TIED out t =>
      rw [hr] at h
      simp only [Option.some.injEq] at h
      subst h
      exact ⟨s, reachable.start, (round_terminal_state s).2 out t hr, Or.inr ⟨rfl, hr⟩⟩
    | CONTINUE t =>
      rw [hr] at h
      simp only [Option.map_eq_some'] at h
      obtain ⟨g, hg, rfl⟩ := h
      obtain ⟨u, hu, h1, h2⟩ := ih t g hg
      exact ⟨u, reachable_head hr hu, h1, h2⟩

theorem reachable_remaining {s u : State} (hpos : 1 ≤ remaining_count s)
    (h : reachable s u) : 1 ≤ remaining_count u := by
  induction h with
  | start => exact hpos
  | next _ hr _ => exact (round_survivor hr).2.1

theorem tabulate_remaining (s : State) : remaining_count (tabulate s) = remaining_count s :=
  remaining_count_congr (tabulate_frame s).2.2.1 fun c => ((tabulate_frame s).2.2.2 c).1

/-- C11. Starting the round loop from a roster of at least one candidate with
nobody eliminated, at least one candidate of the roster is non-eliminated in
every state at the head of a round, after every `tabulate`, after every
`eliminate(min)` (which runs only when `is_tie(min)` returned false) and in
the state in which the loop stops. -/
theorem never_everyone_eliminated (s : State) (hcand : 1 ≤ s.candidate_count)
    (hnobody : nobody_eliminated s) :
    (∀ u, reachable s u →
      ∃ c, c < u.candidate_count.toNat ∧ (u.candidates c).eliminated = false) ∧
    (∀ u, reachable s u →
      ∃ c, c < (tabulate u).candidate_count.toNat ∧
        ((tabulate u).candidates c).eliminated = false) ∧
    (∀ u t, reachable s u → round u = RoundResult.CONTINUE t →
      is_tie (tabulate u) (find_min (tabulate u)) = false ∧
      ∃ c, c < (eliminate (tabulate u) (find_min (tabulate u))).candidate_count.toNat ∧
        ((eliminate (tabulate u) (find_min (tabulate u))).candidates c).eliminated = false) ∧
    (∀ fuel f, round_loop fuel s = some f →
      ∃ c, c < f.state.candidate_count.toNat ∧ (f.state.candidates c).eliminated = false) := by
  have hpos : 1 ≤ remaining_count s := by
    rw [nobody_eliminated_remaining s hnobody]; omega
  refine ⟨fun u hu => ?_, fun u hu => ?_, fun u t hu hr => ⟨(round_continue hr).2.1, ?_⟩,
    fun fuel f hf => ?_⟩
  · exact (remaining_count_pos_iff u).mp (reachable_remaining hpos hu)
  · apply (remaining_count_pos_iff _).mp
    rw [tabulate_remaining]
    exact reachable_remaining hpos hu
  · exact (remaining_count_pos_iff _).mp (round_survivor hr).2.2
  · obtain ⟨u, hu, hst, _⟩ := round_loop_final fuel s f hf
    apply (remaining_count_pos_iff _).mp
    rw [hst, tabulate_remaining]
    exact reachable_remaining hpos hu

theorem never_everyone_eliminated_witness :
    (1 : Int) ≤ example_election.candidate_count ∧ nobody_eliminated example_election ∧
    ((∀ u, reachable example_election u →
      ∃ c, c < u.candidate_count.toNat ∧ (u.candidates c).eliminated = false) ∧
    (∀ u, reachable example_election u →
      ∃ c, c < (tabulate u).candidate_count.toNat ∧
        ((tabulate u).candidates c).eliminated = false) ∧
    (∀ u t, reachable example_election u → round u = RoundResult.CONTINUE t →
      is_tie (tabulate u) (find_min (tabulate u)) = false ∧
      ∃ c, c < (eliminate (tabulate u) (find_min (tabulate u))).candidate_count.toNat ∧
        ((eliminate (tabulate u) (find_min (tabulate u))).candidates c).eliminated = false) ∧
    (∀ fuel f, round_loop fuel example_election = some f →
      ∃ c, c < f.state.candidate_count.toNat ∧ (f.state.candidates c).eliminated = false)) :=
  ⟨by decide, by decide, never_everyone_eliminated example_election (by decide) (by decide)⟩

/-! ## The three-way cycle -/

/-- C12. For the roster Alice, Bob, Charlie and the three ballots of the
three-way cycle, round 1 gives each candidate exactly 1 vote, `print_winner`
returns false, `is_tie(find_min())` is true with `find_min() = 1`, nobody is
eliminated, and the loop stops in round 1 (whatever bound on the rounds it is
run with) having printed Alice, Bob, Charlie in this order. -/
theorem three_way_cycle_all_tied :
    ((tabulate example_cycle).candidates 0).votes = 1 ∧
    ((tabulate example_cycle).candidates 1).votes = 1 ∧
    ((tabulate example_cycle).candidates 2).votes = 1 ∧
    print_winner (tabulate example_cycle) = (false, []) ∧
    find_min (tabulate example_cycle) = 1 ∧
    is_tie (tabulate example_cycle) (find_min (tabulate example_cycle)) = true ∧
    (∀ fuel, 1 ≤ fuel → ∃ f, round_loop fuel example_cycle = some f ∧
      f.out = ["Alice", "Bob", "Charlie"] ∧ f.rounds = 1 ∧ f.won = false ∧
      nobody_eliminated f.state) := by
  refine ⟨by decide, by decide, by decide, by decide, by decide, by decide, fun fuel hfuel => ?_⟩
  have h1 : round_loop 1 example_cycle =
      some ⟨tabulate example_cycle, ["Alice", "Bob", "Charlie"], 1, false⟩ := by
    rfl
  exact ⟨_, round_loop_mono hfuel _ _ h1, rfl, rfl, rfl, by decide⟩

/-! ## A majority of first ranks wins in round 1 -/

theorem top_choice_first_rank (s : State) (hvalid : valid_indices s)
    (hnobody : nobody_eliminated s) (hcand : 1 ≤ s.candidate_count) (i : Nat)
    (hi : i < s.voter_count.toNat) : top_choice s i = some (s.preferences i 0) := by
  obtain ⟨k, hk⟩ : ∃ k, s.candidate_count.toNat = k + 1 :=
    ⟨s.candidate_count.toNat - 1, by omega⟩
  have hlive := hnobody _ (hvalid i hi 0 (by omega))
  unfold top_choice ballot
  rw [hk, List.range_succ_eq_map, List.map_cons, List.find?_cons]
  simp [hlive]

theorem ballots_for_first_rank (s : State) (hvalid : valid_indices s)
    (hnobody : nobody_eliminated s) (hcand : 1 ≤ s.candidate_count) (c : Nat) :
    ballots_for s c = first_rank_count s c := by
  unfold ballots_for first_rank_count
  apply List.countP_congr
  intro i hi
  rw [top_choice_first_rank s hvalid hnobody hcand i (List.mem_range.mp hi)]
  simp

theorem winner_index_of_majority (s : State) (hvoters : 0 ≤ s.voter_count)
    (hzero : zero_votes s) (c : Nat) (hc : c < s.candidate_count.toNat)
    (hmaj : ((tabulate s).candidates c).votes > s.voter_count / 2) :
    winner_index (tabulate s) = some c := by
  obtain ⟨_, tv, tcc, _⟩ := tabulate_frame s
  have hdiv : s.voter_count.tdiv 2 = s.voter_count / 2 := Int.tdiv_eq_ediv hvoters (by decide)
  unfold winner_index
  rw [tv, tcc, hdiv]
  apply first_index_of_least hc
  · simpa using hmaj
  · intro j hj
    by_contra hjv
    have hjv' : ((tabulate s).candidates j).votes > s.voter_count / 2 := by simpa using hjv
    have := tabulate_majority_unique s hvoters hzero j c (by omega) hc hjv' hmaj
    omega

theorem round_of_winner_index {s : State} {c : Nat} (h : winner_index (tabulate s) = some c) :
    round s = RoundResult.WINNER_FOUND [((tabulate s).candidates c).name] (tabulate s) := by
  unfold round
  simp only [print_winner, h, if_true]

/-- C13. In an election of `voter_count >= 0` valid ballots entered with all
votes at 0 and nobody eliminated, a roster candidate ranked first on more than
`floor(voter_count / 2)` ballots (as is a candidate ranked first on all of at
least one ballot) is the one `print_winner` reports in round 1: the loop stops
there with exactly that name printed and nobody eliminated.  For the roster
Alice, Bob with ballots Alice > Bob three times and Bob > Alice twice round 1
gives Alice 3 and Bob 2 votes and Alice is printed. -/
theorem first_round_majority_wins (s : State) (hvoters : 0 ≤ s.voter_count)
    (hvalid : valid_indices s) (hzero : zero_votes s) (hnobody : nobody_eliminated s)
    (c : Nat) (hc : c < s.candidate_count.toNat)
    (hmaj : (first_rank_count s c : Int) > s.voter_count / 2) :
    ((tabulate s).candidates c).votes = first_rank_count s c ∧
    round s = RoundResult.WINNER_FOUND [(s.candidates c).name] (tabulate s) ∧
    (∀ fuel, 1 ≤ fuel →
      round_loop fuel s = some ⟨tabulate s, [(s.candidates c).name], 1, true⟩) ∧
    nobody_eliminated (tabulate s) ∧
    (1 ≤ s.voter_count → ∀ d, (first_rank_count s d : Int) = s.voter_count →
      (first_rank_count s d : Int) > s.voter_count / 2) ∧
    (((tabulate example_first_round).candidates 0).votes = 3 ∧
      ((tabulate example_first_round).candidates 1).votes = 2 ∧
      print_winner (tabulate example_first_round) = (true, ["Alice"])) := by
  have hcand : 1 ≤ s.candidate_count := by omega
  obtain ⟨_, _, tcc, tfl⟩ := tabulate_frame s
  have hv : ((tabulate s).candidates c).votes = first_rank_count s c := by
    rw [tabulate_votes, hzero c hc, ballots_for_first_rank s hvalid hnobody hcand]; simp
  have hw := winner_index_of_majority s hvoters hzero c hc (by rw [hv]; exact hmaj)
  have hr : round s = RoundResult.WINNER_FOUND [(s.candidates c).name] (tabulate s) := by
    rw [round_of_winner_index hw, (tfl c).2]
  refine ⟨hv, hr, fun fuel hfuel => ?_, fun d hd => ?_, fun h1 d hd => by omega,
    by decide, by decide, by decide⟩
  · apply round_loop_mono hfuel
    rw [round_loop, hr]
  · rw [(tfl d).1]
    exact hnobody d (by rwa [tcc] at hd)

theorem first_round_majority_wins_witness :
    (0 : Int) ≤ example_first_round.voter_count ∧ valid_indices example_first_round ∧
    zero_votes example_first_round ∧ nobody_eliminated example_first_round ∧
    0 < example_first_round.candidate_count.toNat ∧
    (first_rank_count example_first_round 0 : Int) > example_first_round.voter_count / 2 ∧
    (((tabulate example_first_round).candidates 0).votes =
      first_rank_count example_first_round 0 ∧
    round example_first_round =
      RoundResult.WINNER_FOUND [(example_first_round.candidates 0).name]
        (tabulate example_first_round) ∧
    (∀ fuel, 1 ≤ fuel →
      round_loop fuel example_first_round =
        some ⟨tabulate example_first_round, [(example_first_round.candidates 0).name], 1, true⟩) ∧
    nobody_eliminated (tabulate example_first_round) ∧
    (1 ≤ example_first_round.voter_count → ∀ d,
      (first_rank_count example_first_round d : Int) = example_first_round.voter_count →
      (first_rank_count example_first_round d : Int) > example_first_round.voter_count / 2) ∧
    (((tabulate example_first_round).candidates 0).votes = 3 ∧
      ((tabulate example_first_round).candidates 1).votes = 2 ∧
      print_winner (tabulate example_first_round) = (true, ["Alice"]))) :=
  ⟨by decide, by decide, by decide, by decide, by decide, by decide,
    first_round_majority_wins example_first_round (by decide) (by decide) (by decide)
      (by decide) 0 (by decide) (by decide)⟩

/-! ## Ballot recording -/

theorem set_preference_apply (s : State) (voter rank v i j : Nat) :
    (s.set_preference voter rank v).preferences i j =
      if i = voter ∧ j = rank then v else s.preferences i j := by
  unfold State.set_preference
  simp only [Function.update_apply]
  by_cases hi : i = voter
  · subst hi
    by_cases hj : j = rank
    · subst hj; simp
    · simp [hj]
  · simp [hi]

theorem vote_of_match (s : State) (voter rank : Nat) (name : String) (i : Nat)
    (h : first_index (fun i => name == (s.candidates i).name) s.candidate_count.toNat = some i) :
    vote s voter rank name = (true, s.set_preference voter rank i) := by
  unfold vote
  rw [h]

theorem vote_of_no_match (s : State) (voter rank : Nat) (name : String)
    (h : first_index (fun i => name == (s.candidates i).name) s.candidate_count.toNat = none) :
    vote s voter rank name = (false, s) := by
  unfold vote
  rw [h]

/-- C14. The call `vote(voter, rank, name)` returns true if and only if `name`
is equal, character by character, to the name of some roster candidate.  On
success the roster index of the first candidate of that name is stored at
`preferences[voter][rank]`, no other ballot entry, no candidate and neither
counter changes; on failure the state is unchanged.  A name that differs only
in case is rejected. -/
theorem vote_records_first_match (s : State) (voter rank : Nat) (name : String) :
    ((vote s voter rank name).1 = true ↔
      ∃ i, i < s.candidate_count.toNat ∧ (s.candidates i).name = name) ∧
    (∀ i, i < s.candidate_count.toNat → (s.candidates i).name = name →
      (∀ j, j < i → (s.candidates j).name ≠ name) →
      vote s voter rank name = (true, s.set_preference voter rank i)) ∧
    ((vote s voter rank name).1 = true →
      (∃ i, i < s.candidate_count.toNat ∧ (s.candidates i).name = name ∧
        (∀ j, j < i → (s.candidates j).name ≠ name) ∧
        (vote s voter rank name).2.preferences voter rank = i) ∧
      (∀ v r, ¬ (v = voter ∧ r = rank) →
        (vote s voter rank name).2.preferences v r = s.preferences v r) ∧
      (vote s voter rank name).2.candidates = s.candidates ∧
      (vote s voter rank name).2.voter_count = s.voter_count ∧
      (vote s voter rank name).2.candidate_count = s.candidate_count) ∧
    ((vote s voter rank name).1 = false → (vote s voter rank name).2 = s) ∧
    ((vote example_cycle 0 0 "alice").1 = false ∧ (vote example_cycle 0 0 "Alice").1 = true) := by
  have hfirst : ∀ i, i < s.candidate_count.toNat → (s.candidates i).name = name →
      (∀ j, j < i → (s.candidates j).name ≠ name) →
      first_index (fun i => name == (s.candidates i).name) s.candidate_count.toNat = some i := by
    intro i hi hn hmin
    apply first_index_of_least hi
    · simp [hn]
    · intro j hj
      have := hmin j hj
      simpa using fun e => this e.symm
  refine ⟨?_, fun i hi hn hmin => vote_of_match s voter rank name i (hfirst i hi hn hmin),
    fun hv => ?_, fun hv => ?_, by decide, by decide⟩
  · cases h : first_index (fun i => name == (s.candidates i).name) s.candidate_count.toNat with
    | none =>
      rw [vote_of_no_match s voter rank name h]
      simp only [Bool.false_eq_true, false_iff]
      rintro ⟨i, hi, hn⟩
      have := first_index_none h i hi
      simp [hn] at this
    | some i =>
      rw [vote_of_match s voter rank name i h]
      simp only [true_iff]
      obtain ⟨h1, h2, _⟩ := first_index_some h
      exact ⟨i, h1, by simpa using Eq.symm (of_decide_eq_true (by simpa using h2))⟩
  · cases h : first_index (fun i => name == (s.candidates i).name) s.candidate_count.toNat with
    | none => rw [vote_of_no_match s voter rank name h] at hv; cases hv
    | some i =>
      rw [vote_of_match s voter rank name i h]
      obtain ⟨h1, h2, h3⟩ := first_index_some h
      have h2' : name = (s.candidates i).name := by simpa using h2
      refine ⟨⟨i, h1, h2'.symm, fun j hj e => ?_, ?_⟩, fun v r hvr => ?_, rfl, rfl, rfl⟩
      · have := h3 j hj
        simp [e] at this
      · show (s.set_preference voter rank i).preferences voter rank = i
        rw [set_preference_apply]; simp
      · show (s.set_preference voter rank i).preferences v r = s.preferences v r
        rw [set_preference_apply, if_neg hvr]
  · cases h : first_index (fun i => name == (s.candidates i).name) s.candidate_count.toNat with
    | none => rw [vote_of_no_match s voter rank name h]
    | some i => rw [vote_of_match s voter rank name i h] at hv; cases hv

/-! ## The shape of the output -/

theorem print_remaining_upto (s : State) (n : Nat) :
    for_loop
      (fun i (out : List String) =>
        if !(s.candidates i).eliminated then out ++ [(s.candidates i).name] else out) n [] =
      (((List.range n).filter fun c => !(s.candidates c).eliminated).map
        fun c => (s.candidates c).name) := by
  induction n with
  | zero => rfl
  | succ n ih =>
    rw [for_loop, ih, List.range_succ, List.filter_append, List.map_append]
    cases he : (s.candidates n).eliminated <;> simp [List.filter, he]

theorem print_remaining_eq (s : State) : print_remaining s = names_remaining s :=
  print_remaining_upto s _

theorem ediv_two_le_tdiv (a : Int) : a / 2 ≤ a.tdiv 2 := by
  by_cases ha : 0 ≤ a
  · rw [Int.tdiv_eq_ediv ha (by decide)]
  · have h1 : a = -(-a) := by omega
    have h2 : a.tdiv 2 = -((-a) / 2) := by
      conv_lhs => rw [h1]
      rw [Int.neg_tdiv, Int.tdiv_eq_ediv (by omega) (by decide)]
    rw [h2]
    omega

theorem round_winner_found {s t : State} {out : List String}
    (hr : round s = RoundResult.WINNER_FOUND out t) :
    ∃ c, winner_index (tabulate s) = some c ∧ out = [((tabulate s).candidates c).name] := by
  unfold round at hr
  simp only at hr
  by_cases hw : (print_winner (tabulate s)).1 = true
  · rw [if_pos hw] at hr
    simp only [RoundResult.WINNER_FOUND.injEq] at hr
    obtain ⟨hout, _⟩ := hr
    unfold print_winner at hw hout
    cases hc : winner_index (tabulate s) with
    | none => rw [hc] at hw; cases hw
    | some c => rw [hc] at hout; exact ⟨c, rfl, hout.symm⟩
  · rw [if_neg hw] at hr
    split at hr <;> cases hr

theorem round_all_tied {s t : State} {out : List String}
    (hr : round s = RoundResult.ALL_TIED out t) :
    is_tie (tabulate s) (find_min (tabulate s)) = true ∧ out = print_remaining (tabulate s) := by
  unfold round at hr
  simp only at hr
  by_cases hw : (print_winner (tabulate s)).1 = true
  · rw [if_pos hw] at hr; cases hr
  · rw [if_neg hw] at hr
    by_cases htie : is_tie (tabulate s) (find_min (tabulate s)) = true
    · rw [if_pos htie] at hr
      simp only [RoundResult.ALL_TIED.injEq] at hr
      exact ⟨htie, hr.1.symm⟩
    · rw [if_neg htie] at hr; cases hr

theorem reachable_counts {s u : State} (h : reachable s u) :
    u.voter_count = s.voter_count ∧ u.candidate_count = s.candidate_count ∧
      u.preferences = s.preferences := by
  induction h with
  | start => exact ⟨rfl, rfl, rfl⟩
  | next _ hr ih =>
    obtain ⟨_, _, rfl⟩ := round_continue hr
    obtain ⟨rp, rv, rcc⟩ := reset_votes_frame (eliminate (tabulate _) (find_min (tabulate _)))
    obtain ⟨ep, ev, ecc⟩ := eliminate_frame (tabulate _) (find_min (tabulate _))
    obtain ⟨tp, tv, tcc, _⟩ := tabulate_frame _
    exact ⟨by rw [rv, ev, tv, ih.1], by rw [rcc, ecc, tcc, ih.2.1], by rw [rp, ep, tp, ih.2.2]⟩

/-- C15. Whenever the round loop stops, the number of voters and of
candidates is the one it was entered with and the output is either exactly
one name, that of a roster candidate whose votes in the final round exceed
`floor(voter_count / 2)`, or, in the tie case, the names of all the
non-eliminated candidates of the roster, each once and in roster order, who
all hold the same votes in the final round. -/
theorem output_is_winner_or_all_remaining (fuel : Nat) (s : State) (f : Finished)
    (h : round_loop fuel s = some f) :
    f.state.voter_count = s.voter_count ∧ f.state.candidate_count = s.candidate_count ∧
    ((f.won = true ∧ ∃ c, c < f.state.candidate_count.toNat ∧
        f.out = [(f.state.candidates c).name] ∧
        (f.state.candidates c).votes > f.state.voter_count / 2) ∨
      (f.won = false ∧ f.out = names_remaining f.state ∧
        ∀ c d, c < f.state.candidate_count.toNat → d < f.state.candidate_count.toNat →
          (f.state.candidates c).eliminated = false →
          (f.state.candidates d).eliminated = false →
          (f.state.candidates c).votes = (f.state.candidates d).votes)) := by
  obtain ⟨u, hu, hst, hcase⟩ := round_loop_final fuel s f h
  obtain ⟨hv, hcc, _⟩ := reachable_counts hu
  obtain ⟨_, tv, tcc, _⟩ := tabulate_frame u
  refine ⟨by rw [hst, tv, hv], by rw [hst, tcc, hcc], ?_⟩
  rcases hcase with ⟨hwon, hr⟩ | ⟨hwon, hr⟩
  · left
    obtain ⟨c, hc, hout⟩ := round_winner_found hr
    obtain ⟨h1, h2, _⟩ := winner_index_some hc
    rw [hst]
    have := ediv_two_le_tdiv (tabulate u).voter_count
    exact ⟨hwon, c, h1, hout, by omega⟩
  · right
    obtain ⟨htie, hout⟩ := round_all_tied hr
    rw [hst]
    refine ⟨hwon, by rw [hout, print_remaining_eq], fun c d hc hd hce hde => ?_⟩
    have hall := (is_tie_iff_forall (tabulate u) _).mp htie
    rw [hall c hc hce, hall d hd hde]

theorem output_is_winner_or_all_remaining_witness :
    round_loop 3 example_election = some ⟨example_election_final, ["Alice"], 2, true⟩ ∧
    (example_election_final.voter_count = example_election.voter_count ∧
    example_election_final.candidate_count = example_election.candidate_count ∧
    ((true = true ∧ ∃ c, c < example_election_final.candidate_count.toNat ∧
        ["Alice"] = [(example_election_final.candidates c).name] ∧
        (example_election_final.candidates c).votes > example_election_final.voter_count / 2) ∨
      (true = false ∧ ["Alice"] = names_remaining example_election_final ∧
        ∀ c d, c < example_election_final.candidate_count.toNat →
          d < example_election_final.candidate_count.toNat →
          (example_election_final.candidates c).eliminated = false →
          (example_election_final.candidates d).eliminated = false →
          (example_election_final.candidates c).votes =
            (example_election_final.candidates d).votes))) :=
  ⟨rfl, output_is_winner_or_all_remaining 3 example_election
    ⟨example_election_final, ["Alice"], 2, true⟩ rfl⟩

/-! ## Votes are recomputed from scratch in every round -/

theorem initial_state_zero_votes (names : List String) (ballots : List (List Nat)) :
    zero_votes (initial_state names ballots) ∧ nobody_eliminated (initial_state names ballots) := by
  have h : ∀ c, ((initial_state names ballots).candidates c).votes = 0 ∧
      ((initial_state names ballots).candidates c).eliminated = false := by
    intro c
    simp only [initial_state, state_of, List.getD_eq_getElem?_getD, List.getElem?_map]
    cases names[c]? <;> simp [empty_cell]
  exact ⟨fun c _ => (h c).1, fun c _ => (h c).2⟩

theorem round_zero_votes {s t : State} (hr : round s = RoundResult.CONTINUE t) :
    zero_votes t := by
  obtain ⟨_, _, rfl⟩ := round_continue hr
  intro c hc
  rw [(reset_votes_frame _).2.2] at hc
  rw [reset_votes_candidates, if_pos hc]

theorem reachable_zero_votes {s u : State} (hzero : zero_votes s) (h : reachable s u) :
    zero_votes u := by
  induction h with
  | start => exact hzero
  | next _ hr _ => exact round_zero_votes hr

theorem ballots_for_eliminated (s : State) (c : Nat)
    (he : (s.candidates c).eliminated = true) : ballots_for s c = 0 := by
  unfold ballots_for
  rw [List.countP_eq_zero]
  intro i _ hi
  have := top_choice_live (of_decide_eq_true hi)
  rw [he] at this
  cases this

/-- C16. When the round loop is entered with all votes at 0, as `main` sets
them, `tabulate` starts every round with all votes of the roster at 0 (a round
that continues ends by resetting them), so after the tabulation of any round
the votes of each roster candidate are the number of ballots whose first
non-eliminated entry is that candidate, and an eliminated candidate holds 0
votes. -/
theorem votes_recomputed_each_round (s : State) (hzero : zero_votes s) :
    (∀ names ballots, zero_votes (initial_state names ballots)) ∧
    (∀ u t, round u = RoundResult.CONTINUE t → zero_votes t) ∧
    (∀ u, reachable s u → zero_votes u ∧
      ∀ c, c < u.candidate_count.toNat →
        ((tabulate u).candidates c).votes = ballots_for u c ∧
        ((u.candidates c).eliminated = true → ((tabulate u).candidates c).votes = 0)) := by
  refine ⟨fun names ballots => (initial_state_zero_votes names ballots).1,
    fun u t hr => round_zero_votes hr, fun u hu => ?_⟩
  have hz := reachable_zero_votes hzero hu
  refine ⟨hz, fun c hc => ?_⟩
  have hv : ((tabulate u).candidates c).votes = ballots_for u c := by
    rw [tabulate_votes, hz c hc]; simp
  exact ⟨hv, fun he => by rw [hv, ballots_for_eliminated u c he]; rfl⟩

theorem votes_recomputed_each_round_witness :
    zero_votes example_election ∧
    ((∀ names ballots, zero_votes (initial_state names ballots)) ∧
    (∀ u t, round u = RoundResult.CONTINUE t → zero_votes t) ∧
    (∀ u, reachable example_election u → zero_votes u ∧
      ∀ c, c < u.candidate_count.toNat →
        ((tabulate u).candidates c).votes = ballots_for u c ∧
        ((u.candidates c).eliminated = true → ((tabulate u).candidates c).votes = 0))) :=
  ⟨by decide, votes_recomputed_each_round example_election (by decide)⟩

/-! ## The documented run -/

theorem documented_run_round_one :
    round_loop 1 documented_run =
      some ⟨tabulate documented_run, ["Alice", "Bob", "Charlie"], 1, false⟩ := by
  rfl

/-- C17, the claim as stated fails.  On the run documented in the source file
(`./runoff Alice Bob Charlie`, 3 voters, the three ballots of the cycle) no
number of rounds of the round loop ends with the single line Alice printed,
and `main` itself prints the voter-count message instead. -/
theorem documented_run_not_single_alice :
    (¬ ∃ fuel f, round_loop fuel documented_run = some f ∧ f.out = ["Alice"]) ∧
    (main ["./runoff", "Alice", "Bob", "Charlie"] 3).2 ≠ ["Alice"] := by
  refine ⟨?_, by decide⟩
  rintro ⟨fuel, f, hf, hout⟩
  cases fuel with
  | zero => cases hf
  | succ fuel =>
    have h := round_loop_mono (Nat.succ_le_succ (Nat.zero_le fuel)) documented_run _
      documented_run_round_one
    rw [hf] at h
    injection h with h
    subst h
    revert hout
    decide

/-- C17, amended.  On the documented run the ballot recording of stage 4
accepts every name and stores the three ballots of the cycle, and the round
loop then stops in round 1 on a tie of all three candidates, whatever bound on
the rounds it is run with: nobody is eliminated and the lines printed are
Alice, Bob, Charlie in roster order. -/
theorem documented_run_prints_all_three :
    (collect_ballots documented_entries
      (init_globals ["./runoff", "Alice", "Bob", "Charlie"] 3)).returned = false ∧
    ((List.range 3).map fun i => (List.range 3).map fun j => documented_run.preferences i j) =
      [[0, 1, 2], [1, 2, 0], [2, 0, 1]] ∧
    documented_run.voter_count = 3 ∧ documented_run.candidate_count = 3 ∧
    is_tie (tabulate documented_run) (find_min (tabulate documented_run)) = true ∧
    (∀ fuel, 1 ≤ fuel → ∃ f, round_loop fuel documented_run = some f ∧
      f.out = ["Alice", "Bob", "Charlie"] ∧ f.rounds = 1 ∧ f.won = false ∧
      nobody_eliminated f.state) := by
  refine ⟨by decide, by decide, by decide, by decide, by decide, fun fuel hfuel => ?_⟩
  exact ⟨_, round_loop_mono hfuel _ _ documented_run_round_one, rfl, rfl, rfl, by decide⟩

/-! ## The voter-count stage of `main` -/

/-- C20, the behaviour of the code.  With two candidates on the command line
and 3 entered as the number of voters, `main` prints the
"Maximum number of voters" message and returns 3; so it does for every number
of voters entered and every roster of 1 to 9 candidates. -/
theorem main_rejects_every_voter_count :
    main ["./runoff", "Alice", "Bob"] 3 = (3, ["Maximum number of voters is 100"]) ∧
    (∀ argv voters, 2 ≤ argv.length → argv.length ≤ 10 →
      main argv voters = (3, ["Maximum number of voters is 100"])) := by
  refine ⟨by decide, fun argv voters h2 h10 => ?_⟩
  unfold main
  simp only [init_globals, MAX_CANDIDATES]
  rw [if_neg (by omega), if_neg (by omega)]

/-! ## What an accepted ballot holds -/

theorem record_rank_returned (entered : Nat → Nat → String) (i j : Nat) (p : Collecting)
    (h : (record_rank entered i j p).returned = false) : p.returned = false := by
  cases hp : p.returned with
  | false => rfl
  | true =>
    unfold record_rank at h
    rw [if_pos hp] at h
    rw [hp] at h
    cases h

theorem record_rank_accepts (entered : Nat → Nat → String) (i j : Nat) (q : Collecting)
    (hq : q.returned = false) (k : Nat)
    (h : first_index (fun k => entered i j == (q.state.candidates k).name)
      q.state.candidate_count.toNat = some k) :
    record_rank entered i j q = { q with state := q.state.set_preference i j k } := by
  unfold record_rank
  rw [if_neg (by simp [hq]), vote_of_match _ i j _ k h]
  simp

theorem record_rank_refuses (entered : Nat → Nat → String) (i j : Nat) (q : Collecting)
    (hq : q.returned = false)
    (h : first_index (fun k => entered i j == (q.state.candidates k).name)
      q.state.candidate_count.toNat = none) :
    (record_rank entered i j q).returned = true := by
  unfold record_rank
  rw [if_neg (by simp [hq]), vote_of_no_match _ i j _ h]
  simp

/-- While no vote has been refused, the ranks asked so far hold the first
roster index of the name entered and nothing else has changed. -/
theorem record_ranks_upto (entered : Nat → Nat → String) (i : Nat) (p : Collecting) (n : Nat)
    (hq : (for_loop (record_rank entered i) n p).returned = false) :
    p.returned = false ∧
    (for_loop (record_rank entered i) n p).out = p.out ∧
    (for_loop (record_rank entered i) n p).state.candidates = p.state.candidates ∧
    (for_loop (record_rank entered i) n p).state.voter_count = p.state.voter_count ∧
    (for_loop (record_rank entered i) n p).state.candidate_count = p.state.candidate_count ∧
    (∀ j, j < n →
      is_first_match p.state (entered i j)
        ((for_loop (record_rank entered i) n p).state.preferences i j)) ∧
    (∀ v r, ¬ (v = i ∧ r < n) →
      (for_loop (record_rank entered i) n p).state.preferences v r = p.state.preferences v r) := by
  induction n with
  | zero =>
    exact ⟨hq, rfl, rfl, rfl, rfl, fun j hj => by omega, fun v r _ => rfl⟩
  | succ n ih =>
    rw [for_loop] at hq ⊢
    have hprev := record_rank_returned entered i n _ hq
    obtain ⟨h0, hout, hc, hv, hcc, hrow, hrest⟩ := ih hprev
    cases hfi : first_index
        (fun k => entered i n == ((for_loop (record_rank entered i) n p).state.candidates k).name)
        (for_loop (record_rank entered i) n p).state.candidate_count.toNat with
    | none =>
      rw [record_rank_refuses entered i n _ hprev hfi] at hq
      cases hq
    | some k =>
      rw [record_rank_accepts entered i n _ hprev k hfi]
      obtain ⟨k1, k2, k3⟩ := first_index_some hfi
      rw [hcc] at k1
      simp only [hc] at k2 k3
      have hk : is_first_match p.state (entered i n) k := by
        refine ⟨k1, ?_, fun m hm e => ?_⟩
        · have : entered i n = (p.state.candidates k).name := by simpa using k2
          exact this.symm
        · have := k3 m hm
          simp [e] at this
      refine ⟨h0, hout, hc, hv, hcc, fun j hj => ?_, fun v r hvr => ?_⟩
      · show is_first_match p.state (entered i j)
          (((for_loop (record_rank entered i) n p).state.set_preference i n k).preferences i j)
        rw [set_preference_apply]
        by_cases hjn : j = n
        · subst hjn; simpa using hk
        · rw [if_neg fun h => hjn h.2]
          exact hrow j (by omega)
      · show ((for_loop (record_rank entered i) n p).state.set_preference i n k).preferences v r
          = p.state.preferences v r
        rw [set_preference_apply, if_neg fun h => hvr ⟨h.1, by omega⟩]
        exact hrest v r fun h => hvr ⟨h.1, by omega⟩

theorem record_ballot_returned (entered : Nat → Nat → String) (i : Nat) (p : Collecting)
    (hp : p.returned = false) (hq : (record_ballot entered i p).returned = false) :
    (for_loop (record_rank entered i) p.state.candidate_count.toNat p).returned = false ∧
    (record_ballot entered i p).state =
      (for_loop (record_rank entered i) p.state.candidate_count.toNat p).state := by
  unfold record_ballot at hq ⊢
  rw [if_neg (by simp [hp])] at hq ⊢
  simp only at hq ⊢
  cases hr : (for_loop (record_rank entered i) p.state.candidate_count.toNat p).returned with
  | true => rw [if_pos hr] at hq; rw [hr] at hq; cases hq
  | false => rw [if_neg (by simp)]; exact ⟨rfl, rfl⟩

/-- C21, the claim as stated fails.  On the roster Alice, Bob a voter who
names Alice at rank 1 and at rank 2 has both votes accepted (`main` does not
return), and the ballot row is 0, 0: roster index 0 appears twice and roster
index 1 not at all. -/
theorem repeated_name_is_accepted :
    (vote (init_globals ["./runoff", "Alice", "Bob"] 1) 0 0 "Alice").1 = true ∧
    (vote (vote (init_globals ["./runoff", "Alice", "Bob"] 1) 0 0 "Alice").2 0 1 "Alice").1 =
      true ∧
    example_repeat.returned = false ∧
    ballot_row example_repeat.state 0 = [0, 0] ∧
    (ballot_row example_repeat.state 0).count 0 = 2 ∧
    (ballot_row example_repeat.state 0).count 1 = 0 := by
  decide

/-- C21, amended.  When `vote` has returned true for all ranks of voter `i`
(stage 4 has not returned on this voter), every entry of the voter's ballot
row is the index of the first roster candidate bearing the name entered at
that rank, hence a roster index; the roster and the other voters' rows are
unchanged.  The row need not hold every index, nor an index only once. -/
theorem accepted_ballot_holds_first_matches (entered : Nat → Nat → String) (i : Nat)
    (p : Collecting) (hp : p.returned = false)
    (hq : (record_ballot entered i p).returned = false) :
    (∀ j, j < p.state.candidate_count.toNat →
      is_first_match p.state (entered i j) ((record_ballot entered i p).state.preferences i j)) ∧
    (∀ x, x ∈ ballot_row (record_ballot entered i p).state i →
      x < p.state.candidate_count.toNat) ∧
    (∀ v r, v ≠ i →
      (record_ballot entered i p).state.preferences v r = p.state.preferences v r) ∧
    (record_ballot entered i p).state.candidates = p.state.candidates ∧
    (record_ballot entered i p).state.voter_count = p.state.voter_count ∧
    (record_ballot entered i p).state.candidate_count = p.state.candidate_count := by
  obtain ⟨hr, hst⟩ := record_ballot_returned entered i p hp hq
  obtain ⟨_, _, hc, hv, hcc, hrow, hrest⟩ := record_ranks_upto entered i p _ hr
  rw [hst]
  refine ⟨hrow, fun x hx => ?_, fun v r hvi => hrest v r fun h => hvi h.1, hc, hv, hcc⟩
  simp only [ballot_row, List.mem_map, List.mem_range] at hx
  obtain ⟨j, hj, rfl⟩ := hx
  rw [hcc] at hj
  exact (hrow j hj).1

theorem accepted_ballot_holds_first_matches_witness :
    (⟨init_globals ["./runoff", "Alice", "Bob"] 1, [], false⟩ : Collecting).returned = false ∧
    (record_ballot (fun _ _ => "Alice") 0
      ⟨init_globals ["./runoff", "Alice", "Bob"] 1, [], false⟩).returned = false ∧
    ((∀ j, j < (init_globals ["./runoff", "Alice", "Bob"] 1).candidate_count.toNat →
      is_first_match (init_globals ["./runoff", "Alice", "Bob"] 1) "Alice"
        ((record_ballot (fun _ _ => "Alice") 0
          ⟨init_globals ["./runoff", "Alice", "Bob"] 1, [], false⟩).state.preferences 0 j)) ∧
    (∀ x, x ∈ ballot_row (record_ballot (fun _ _ => "Alice") 0
        ⟨init_globals ["./runoff", "Alice", "Bob"] 1, [], false⟩).state 0 →
      x < (init_globals ["./runoff", "Alice", "Bob"] 1).candidate_count.toNat) ∧
    (∀ v r, v ≠ 0 →
      (record_ballot (fun _ _ => "Alice") 0
        ⟨init_globals ["./runoff", "Alice", "Bob"] 1, [], false⟩).state.preferences v r =
        (init_globals ["./runoff", "Alice", "Bob"] 1).preferences v r) ∧
    (record_ballot (fun _ _ => "Alice") 0
      ⟨init_globals ["./runoff", "Alice", "Bob"] 1, [], false⟩).state.candidates =
      (init_globals ["./runoff", "Alice", "Bob"] 1).candidates ∧
    (record_ballot (fun _ _ => "Alice") 0
      ⟨init_globals ["./runoff", "Alice", "Bob"] 1, [], false⟩).state.voter_count =
      (init_globals ["./runoff", "Alice", "Bob"] 1).voter_count ∧
    (record_ballot (fun _ _ => "Alice") 0
      ⟨init_globals ["./runoff", "Alice", "Bob"] 1, [], false⟩).state.candidate_count =
      (init_globals ["./runoff", "Alice", "Bob"] 1).candidate_count) :=
  ⟨rfl, by decide,
    accepted_ballot_holds_first_matches (fun _ _ => "Alice") 0
      ⟨init_globals ["./runoff", "Alice", "Bob"] 1, [], false⟩ rfl (by decide)⟩

/-! ## A declared winner is not eliminated -/

/-- C25. When the round loop is entered with `voter_count >= 0` and all votes
at 0, in every round the candidate at which `print_winner` returns after the
tabulation is a roster candidate that is not eliminated, although
`print_winner` does not read the flag: an eliminated roster candidate holds 0
votes after the tabulation and the threshold `voter_count / 2` is not
negative. -/
theorem declared_winner_not_eliminated (s : State) (hvoters : 0 ≤ s.voter_count)
    (hzero : zero_votes s) :
    ∀ u, reachable s u →
      (0 ≤ (tabulate u).voter_count.tdiv 2) ∧
      (∀ c, c < u.candidate_count.toNat → ((tabulate u).candidates c).eliminated = true →
        ((tabulate u).candidates c).votes = 0) ∧
      (∀ c, winner_index (tabulate u) = some c →
        c < u.candidate_count.toNat ∧ ((tabulate u).candidates c).eliminated = false ∧
        print_winner (tabulate u) = (true, [((tabulate u).candidates c).name])) := by
  intro u hu
  obtain ⟨_, tv, tcc, tfl⟩ := tabulate_frame u
  have hz := reachable_zero_votes hzero hu
  have hv : 0 ≤ (tabulate u).voter_count := by rw [tv, (reachable_counts hu).1]; exact hvoters
  have hmaj : 0 ≤ (tabulate u).voter_count.tdiv 2 := Int.tdiv_nonneg hv (by decide)
  have hel : ∀ c, c < u.candidate_count.toNat → ((tabulate u).candidates c).eliminated = true →
      ((tabulate u).candidates c).votes = 0 := by
    intro c hc he
    rw [(tfl c).1] at he
    rw [tabulate_votes, hz c hc, ballots_for_eliminated u c he]
    rfl
  refine ⟨hmaj, hel, fun c hc => ?_⟩
  obtain ⟨h1, h2, _⟩ := winner_index_some hc
  rw [tcc] at h1
  refine ⟨h1, ?_, by simp [print_winner, hc]⟩
  cases he : ((tabulate u).candidates c).eliminated with
  | false => rfl
  | true =>
    have := hel c h1 he
    omega

theorem declared_winner_not_eliminated_witness :
    (0 : Int) ≤ example_election.voter_count ∧ zero_votes example_election ∧
    (∀ u, reachable example_election u →
      (0 ≤ (tabulate u).voter_count.tdiv 2) ∧
      (∀ c, c < u.candidate_count.toNat → ((tabulate u).candidates c).eliminated = true →
        ((tabulate u).candidates c).votes = 0) ∧
      (∀ c, winner_index (tabulate u) = some c →
        c < u.candidate_count.toNat ∧ ((tabulate u).candidates c).eliminated = false ∧
        print_winner (tabulate u) = (true, [((tabulate u).candidates c).name]))) :=
  ⟨by decide, by decide, declared_winner_not_eliminated example_election (by decide) (by decide)⟩

/-! ## A negative number of voters -/

theorem state_eq_of_fields {s t : State} (h1 : t.preferences = s.preferences)
    (h2 : t.candidates = s.candidates) (h3 : t.voter_count = s.voter_count)
    (h4 : t.candidate_count = s.candidate_count) : t = s := by
  cases s
  cases t
  simp only at h1 h2 h3 h4
  subst h1 h2 h3 h4
  rfl

theorem first_index_eq_none {p : Nat → Bool} {n : Nat} (h : ∀ j, j < n → p j = false) :
    first_index p n = none := by
  cases hf : first_index p n with
  | none => rfl
  | some k =>
    obtain ⟨h1, h2, _⟩ := first_index_some hf
    rw [h k h1] at h2
    cases h2

theorem tabulate_no_voters (s : State) (hv : s.voter_count ≤ 0) : tabulate s = s := by
  unfold tabulate
  have : s.voter_count.toNat = 0 := by omega
  rw [this]
  rfl

theorem find_min_minus_one (s : State) (hv : s.voter_count = -1) (hzero : zero_votes s) :
    find_min s = -1 := by
  obtain ⟨_, _, h3⟩ := find_min_upto s s.candidate_count.toNat
  rcases h3 with h3 | ⟨c, hc, _, hcv⟩
  · rw [← hv]; exact h3
  · have h1 := (find_min_upto s s.candidate_count.toNat).1
    have h2 := hzero c hc
    omega

theorem eliminate_nobody (s : State) (min : Int)
    (h : ∀ c, c < s.candidate_count.toNat → (s.candidates c).votes ≠ min) :
    eliminate s min = s := by
  obtain ⟨h1, h2, h3⟩ := eliminate_frame s min
  refine state_eq_of_fields h1 (funext fun c => ?_) h2 h3
  rw [eliminate_candidates, if_neg fun hc => h c hc.1 hc.2]

theorem reset_votes_of_zero (s : State) (hzero : zero_votes s) : reset_votes s = s := by
  obtain ⟨h1, h2, h3⟩ := reset_votes_frame s
  refine state_eq_of_fields h1 (funext fun c => ?_) h2 h3
  rw [reset_votes_candidates]
  by_cases hc : c < s.candidate_count.toNat
  · rw [if_pos hc]
    have := hzero c hc
    cases hcell : s.candidates c with
    | mk name votes eliminated =>
      rw [hcell] at this
      simp only at this
      subst this
      rfl
  · rw [if_neg hc]

theorem round_negative (s : State) (hv : s.voter_count = -1) (hcand : 1 ≤ s.candidate_count)
    (hnobody : nobody_eliminated s) (hzero : zero_votes s) :
    print_winner s = (false, []) ∧ is_tie s (-1) = false ∧ round s = RoundResult.CONTINUE s := by
  have htab := tabulate_no_voters s (by omega)
  have hmin := find_min_minus_one s hv hzero
  have hwin : winner_index s = none := by
    unfold winner_index
    apply first_index_eq_none
    intro j hj
    rw [hzero j hj, hv]
    decide
  have hpw : print_winner s = (false, []) := by
    unfold print_winner
    rw [hwin]
  have htie : is_tie s (-1) = false := by
    cases ht : is_tie s (-1) with
    | false => rfl
    | true =>
      have h0 := (is_tie_iff_forall s (-1)).mp ht 0 (by omega) (hnobody 0 (by omega))
      have := hzero 0 (by omega)
      omega
  refine ⟨hpw, htie, ?_⟩
  unfold round
  simp only [htab, hpw, hmin, htie, Bool.false_eq_true, if_false]
  rw [eliminate_nobody s (-1) fun c hc => by rw [hzero c hc]; decide, reset_votes_of_zero s hzero]

/-- C26. With `voter_count = -1`, a roster that is not empty, nobody
eliminated and all votes at 0, `tabulate` leaves the state as it is,
`print_winner` returns false, `find_min` returns -1, `is_tie(-1)` returns
false and `eliminate(-1)` eliminates nobody, so a round ends in the state it
started in and the round loop stops within no number of rounds. -/
theorem negative_voter_count_makes_no_progress (s : State) (hv : s.voter_count = -1)
    (hcand : 1 ≤ s.candidate_count) (hnobody : nobody_eliminated s) (hzero : zero_votes s) :
    tabulate s = s ∧
    print_winner (tabulate s) = (false, []) ∧
    (-1 : Int).tdiv 2 = 0 ∧
    find_min (tabulate s) = -1 ∧
    is_tie (tabulate s) (-1) = false ∧
    eliminate (tabulate s) (-1) = tabulate s ∧
    round s = RoundResult.CONTINUE s ∧
    (∀ fuel, round_loop fuel s = none) := by
  have htab := tabulate_no_voters s (by omega)
  obtain ⟨hpw, htie, hr⟩ := round_negative s hv hcand hnobody hzero
  rw [htab]
  refine ⟨rfl, hpw, by decide, find_min_minus_one s hv hzero, htie,
    eliminate_nobody s (-1) fun c hc => by rw [hzero c hc]; decide, hr, fun fuel => ?_⟩
  induction fuel with
  | zero => rfl
  | succ fuel ih => rw [round_loop, hr]; simp only [ih, Option.map_none']

theorem negative_voter_count_makes_no_progress_witness :
    example_negative.voter_count = -1 ∧ (1 : Int) ≤ example_negative.candidate_count ∧
    nobody_eliminated example_negative ∧ zero_votes example_negative ∧
    (tabulate example_negative = example_negative ∧
    print_winner (tabulate example_negative) = (false, []) ∧
    (-1 : Int).tdiv 2 = 0 ∧
    find_min (tabulate example_negative) = -1 ∧
    is_tie (tabulate example_negative) (-1) = false ∧
    eliminate (tabulate example_negative) (-1) = tabulate example_negative ∧
    round example_negative = RoundResult.CONTINUE example_negative ∧
    (∀ fuel, round_loop fuel example_negative = none)) :=
  ⟨by decide, by decide, by decide, by decide,
    negative_voter_count_makes_no_progress example_negative (by decide) (by decide) (by decide)
      (by decide)⟩

/-! ## The round loop on 32-bit counters -/

/-- When the round loop is entered ready for a round with a number of voters
that is an `int`, no round overflows a counter: in every state at the head of
a round `tabulate` on 32-bit counters is `tabulate` in exact arithmetic. -/
theorem round_loop_counters_fit (s : State) (hs : round_ready s)
    (hvoters : s.voter_count ≤ INT_MAX) (u : State) (hu : reachable s u) :
    tabulate_wrapping u = tabulate u := by
  obtain ⟨_, hvalid, hzero⟩ := reachable_ready hs hu
  exact tabulate_wrapping_of_zero_votes u hvalid hzero (by rw [(reachable_counts hu).1]; exact hvoters)

end Runoff

namespace Plurality

open Runoff (for_loop first_index wrap_int INT_MIN INT_MAX)

/-! ## vote -/

theorem max_votes_upto (s : State) (n : Nat) :
    0 ≤ for_loop (max_votes_step s) n 0 ∧
    (∀ j, j < n → (s.candidates j).votes ≤ for_loop (max_votes_step s) n 0) ∧
    (for_loop (max_votes_step s) n 0 = 0 ∨
      ∃ j, j < n ∧ (s.candidates j).votes = for_loop (max_votes_step s) n 0) := by
  induction n with
  | zero => exact ⟨le_refl _, fun j hj => by omega, Or.inl rfl⟩
  | succ n ih =>
    obtain ⟨h1, h2, h3⟩ := ih
    simp only [for_loop, max_votes_step]
    by_cases hgt : (s.candidates n).votes > for_loop (max_votes_step s) n 0
    · rw [if_pos hgt]
      refine ⟨by omega, fun j hj => ?_, Or.inr ⟨n, by omega, rfl⟩⟩
      by_cases hjn : j = n
      · subst hjn; exact le_refl _
      · have := h2 j (by omega); omega
    · rw [if_neg hgt]
      refine ⟨h1, fun j hj => ?_, ?_⟩
      · by_cases hjn : j = n
        · subst hjn; omega
        · exact h2 j (by omega)
      · rcases h3 with h3 | ⟨j, hj, hv⟩
        · exact Or.inl h3
        · exact Or.inr ⟨j, by omega, hv⟩

/-- With votes that are not negative and a roster that is not empty,
`max_votes` is the maximum of the votes of the roster. -/
theorem max_votes_attained (s : State) (hcand : 1 ≤ s.candidate_count)
    (hvotes : ∀ c, c < s.candidate_count.toNat → 0 ≤ (s.candidates c).votes) :
    ∃ i, i < s.candidate_count.toNat ∧ (s.candidates i).votes = max_votes s := by
  obtain ⟨_, h2, h3⟩ := max_votes_upto s s.candidate_count.toNat
  rcases h3 with h3 | h3
  · refine ⟨0, by omega, ?_⟩
    have := h2 0 (by omega)
    have := hvotes 0 (by omega)
    unfold max_votes
    omega
  · exact h3

theorem votes_eq_max_iff (s : State)
    (hvotes : ∀ c, c < s.candidate_count.toNat → 0 ≤ (s.candidates c).votes) (i : Nat)
    (hi : i < s.candidate_count.toNat) :
    (s.candidates i).votes = max_votes s ↔ holds_maximum s i := by
  obtain ⟨k, hk, hkv⟩ := max_votes_attained s (by omega) hvotes
  have hle := (max_votes_upto s s.candidate_count.toNat).2.1
  constructor
  · intro h j hj
    rw [h]
    exact hle j hj
  · intro h
    have h1 := h k hk
    have h2 := hle i hi
    unfold max_votes at hkv ⊢
    omega

theorem print_winner_upto (s : State) (n : Nat) :
    for_loop (print_step s) n [] =
      (((List.range n).filter fun i => (s.candidates i).votes == max_votes s).map
        fun i => (s.candidates i).name) := by
  induction n with
  | zero => rfl
  | succ n ih =>
    rw [for_loop, ih, List.range_succ, List.filter_append, List.map_append]
    unfold print_step
    by_cases hv : (s.candidates n).votes = max_votes s
    · simp [List.filter, hv]
    · have hb : ((s.candidates n).votes == max_votes s) = false := by simpa using hv
      simp [List.filter, hb]

/-- C19. For a roster whose vote counts are not negative, `print_winner` of
the plurality program prints exactly the names of the candidates whose votes
are the maximum over the roster, in roster order (all of them when several
share the maximum), and at least one name when `candidate_count >= 1`. -/
theorem plurality_prints_all_maxima (s : State)
    (hvotes : ∀ c, c < s.candidate_count.toNat → 0 ≤ (s.candidates c).votes) :
    print_winner s = top_names s ∧
    (∀ i, i < s.candidate_count.toNat →
      ((s.candidates i).votes = max_votes s ↔ holds_maximum s i)) ∧
    (1 ≤ s.candidate_count →
      (∃ i, i < s.candidate_count.toNat ∧ holds_maximum s i) ∧ print_winner s ≠ []) := by
  have hprint : print_winner s = top_names s := by
    unfold print_winner top_names
    rw [print_winner_upto]
    congr 1
    apply List.filter_congr
    intro i hi
    have := votes_eq_max_iff s hvotes i (List.mem_range.mp hi)
    by_cases hm : holds_maximum s i
    · simp [hm, this.mpr hm]
    · have hne : (s.candidates i).votes ≠ max_votes s := fun e => hm (this.mp e)
      simp [hm, hne]
  refine ⟨hprint, fun i hi => votes_eq_max_iff s hvotes i hi, fun hcand => ?_⟩
  obtain ⟨i, hi, hv⟩ := max_votes_attained s hcand hvotes
  have hm := (votes_eq_max_iff s hvotes i hi).mp hv
  refine ⟨⟨i, hi, hm⟩, ?_⟩
  rw [hprint]
  unfold top_names
  intro hnil
  have hmem : (s.candidates i).name ∈
      ((List.range s.candidate_count.toNat).filter fun i => decide (holds_maximum s i)).map
        fun i => (s.candidates i).name :=
    List.mem_map.mpr ⟨i, List.mem_filter.mpr ⟨List.mem_range.mpr hi, by simpa using hm⟩, rfl⟩
  rw [hnil] at hmem
  cases hmem

theorem plurality_prints_all_maxima_witness :
    (∀ c, c < example_tally.candidate_count.toNat → 0 ≤ (example_tally.candidates c).votes) ∧
    (print_winner example_tally = top_names example_tally ∧
    (∀ i, i < example_tally.candidate_count.toNat →
      ((example_tally.candidates i).votes = max_votes example_tally ↔
        holds_maximum example_tally i)) ∧
    (1 ≤ example_tally.candidate_count →
      (∃ i, i < example_tally.candidate_count.toNat ∧ holds_maximum example_tally i) ∧
        print_winner example_tally ≠ [])) :=
  ⟨by decide, plurality_prints_all_maxima example_tally (by decide)⟩

end Plurality

namespace Filter

open Runoff (for_loop)

/-! ## Rounding -/

theorem accurate_exact_div : accurate exact_div := by
  intro n d hn _ hd _
  refine ⟨?_, fun _ => rfl⟩
  rw [sub_self, abs_zero]
  unfold exact_div
  have h1 : (0 : Rat) ≤ (n : Rat) := by exact_mod_cast hn
  have h2 : (0 : Rat) < (d : Rat) := by exact_mod_cast (by omega : (0 : Int) < d)
  positivity

/-- The rounded floating-point quotient of the filters is the nearest integer
to the exact quotient, halfway cases rounded up. -/
theorem c_round_fdiv (fdiv : Int → Int → Rat) (hacc : accurate fdiv) (n d : Int)
    (hn0 : 0 ≤ n) (hn : n ≤ 2295) (hd1 : 1 ≤ d) (hd9 : d ≤ 9) :
    c_round (fdiv n d) = (2 * n + d) / (2 * d) := by
  obtain ⟨herr, hexact⟩ := hacc n d hn0 hn hd1 hd9
  have hdpos : (0 : Int) < 2 * d := by omega
  have hlo : (2 * n + d) / (2 * d) * (2 * d) ≤ 2 * n + d :=
    Int.ediv_mul_le _ (by omega)
  have hhi : 2 * n + d < ((2 * n + d) / (2 * d) + 1) * (2 * d) :=
    Int.lt_ediv_add_one_mul_self _ hdpos
  generalize (2 * n + d) / (2 * d) = r at hlo hhi ⊢
  have hdQ : (0 : Rat) < (d : Rat) := by exact_mod_cast (by omega : (0 : Int) < d)
  have hnQ0 : (0 : Rat) ≤ (n : Rat) := by exact_mod_cast hn0
  have hnQ : (n : Rat) ≤ 2295 := by exact_mod_cast hn
  have hx : exact_div n d * d = n := by
    unfold exact_div
    field_simp
  have hx0 : 0 ≤ exact_div n d := by
    unfold exact_div
    positivity
  have hloQ : (r : Rat) * (2 * d) ≤ 2 * n + d := by exact_mod_cast hlo
  have hhiQ : (2 * n + d : Rat) < ((r : Rat) + 1) * (2 * d) := by exact_mod_cast hhi
  -- the two bounds on the computed quotient plus one half
  have hbounds : (r : Rat) ≤ fdiv n d + 1 / 2 ∧ fdiv n d + 1 / 2 < (r : Rat) + 1 := by
    by_cases hdvd : d ∣ 2 * n
    · rw [hexact hdvd]
      constructor
      · have : (r : Rat) * (2 * d) ≤ (exact_div n d + 1 / 2) * (2 * d) := by
          have e : (exact_div n d + 1 / 2) * (2 * d) = 2 * (exact_div n d * d) + d := by ring
          rw [e, hx]; exact hloQ
        exact le_of_mul_le_mul_right this (by positivity)
      · have : (exact_div n d + 1 / 2) * (2 * d) < ((r : Rat) + 1) * (2 * d) := by
          have e : (exact_div n d + 1 / 2) * (2 * d) = 2 * (exact_div n d * d) + d := by ring
          rw [e, hx]; exact hhiQ
        exact lt_of_mul_lt_mul_right this (by positivity)
    · have hne : r * (2 * d) ≠ 2 * n + d := by
        intro e
        exact hdvd ⟨2 * r - 1, by linarith⟩
      have hlo' : r * (2 * d) + 1 ≤ 2 * n + d := by omega
      have hhi' : 2 * n + d + 1 ≤ (r + 1) * (2 * d) := by omega
      have hloQ' : (r : Rat) * (2 * d) + 1 ≤ 2 * n + d := by exact_mod_cast hlo'
      have hhiQ' : (2 * n + d : Rat) + 1 ≤ ((r : Rat) + 1) * (2 * d) := by exact_mod_cast hhi'
      obtain ⟨he1, he2⟩ := abs_le.mp herr
      have hsmall : exact_div n d / 2 ^ 20 * (2 * d) < 1 := by
        have e : exact_div n d / 2 ^ 20 * (2 * d) = 2 * (exact_div n d * d) / 2 ^ 20 := by ring
        rw [e, hx]
        rw [div_lt_one (by positivity)]
        norm_num
        linarith
      constructor
      · have : (r : Rat) * (2 * d) ≤ (fdiv n d + 1 / 2) * (2 * d) := by
          have e : (fdiv n d + 1 / 2) * (2 * d) =
              2 * (exact_div n d * d) + d + (fdiv n d - exact_div n d) * (2 * d) := by ring
          rw [e, hx]
          have : -(exact_div n d / 2 ^ 20) * (2 * d) ≤ (fdiv n d - exact_div n d) * (2 * d) :=
            mul_le_mul_of_nonneg_right he1 (by positivity)
          linarith
        exact le_of_mul_le_mul_right this (by positivity)
      · have : (fdiv n d + 1 / 2) * (2 * d) < ((r : Rat) + 1) * (2 * d) := by
          have e : (fdiv n d + 1 / 2) * (2 * d) =
              2 * (exact_div n d * d) + d + (fdiv n d - exact_div n d) * (2 * d) := by ring
          rw [e, hx]
          have : (fdiv n d - exact_div n d) * (2 * d) ≤ exact_div n d / 2 ^ 20 * (2 * d) :=
            mul_le_mul_of_nonneg_right he2 (by positivity)
          linarith
        exact lt_of_mul_lt_mul_right this (by positivity)
  have hr0 : 0 ≤ r := by
    by_contra hneg
    have : r + 1 ≤ 0 := by omega
    have h1 : (r + 1) * (2 * d) ≤ 0 := Int.mul_nonpos_of_nonpos_of_nonneg this (by omega)
    omega
  have hy0 : 0 ≤ fdiv n d := by
    obtain ⟨he1, _⟩ := abs_le.mp herr
    have : exact_div n d / 2 ^ 20 ≤ exact_div n d := by
      apply div_le_self hx0
      norm_num
    linarith
  unfold c_round
  rw [if_pos hy0, Int.floor_eq_iff]
  exact hbounds

theorem rounded_quotient_spec (n d : Int) (hd : 0 < d) :
    is_rounded_quotient n d (rounded_quotient n d) := by
  unfold is_rounded_quotient rounded_quotient
  have hlo : (2 * n + d) / (2 * d) * (2 * d) ≤ 2 * n + d := Int.ediv_mul_le _ (by omega)
  have hhi : 2 * n + d < ((2 * n + d) / (2 * d) + 1) * (2 * d) :=
    Int.lt_ediv_add_one_mul_self _ (by omega)
  generalize (2 * n + d) / (2 * d) = r at hlo hhi ⊢
  constructor <;> nlinarith

theorem rounded_quotient_unique (n d a b : Int) (hd : 0 < d) (ha : is_rounded_quotient n d a)
    (hb : is_rounded_quotient n d b) : a = b := by
  unfold is_rounded_quotient at ha hb
  obtain ⟨a1, a2⟩ := ha
  obtain ⟨b1, b2⟩ := hb
  by_contra hne
  rcases Int.lt_or_gt_of_ne hne with h | h
  · have : a + 1 ≤ b := h
    have : (a + 1) * d ≤ b * d := Int.mul_le_mul_of_nonneg_right this (by omega)
    nlinarith
  · have : b + 1 ≤ a := h
    have : (b + 1) * d ≤ a * d := Int.mul_le_mul_of_nonneg_right this (by omega)
    nlinarith

theorem rounded_quotient_bounds (n d : Int) (hd : 0 < d) (hn0 : 0 ≤ n) (hn : n ≤ 255 * d) :
    0 ≤ rounded_quotient n d ∧ rounded_quotient n d ≤ 255 := by
  unfold rounded_quotient
  constructor
  · exact Int.ediv_nonneg (by omega) (by omega)
  · have : (2 * n + d) / (2 * d) < 256 := by
      apply Int.ediv_lt_of_lt_mul (by omega)
      nlinarith
    omega

theorem to_byte_of_byte (v : Int) (h0 : 0 ≤ v) (h : v ≤ 255) : (to_byte v : Int) = v := by
  unfold to_byte
  omega

/-! ## Loops over the pixels -/

theorem set_pixel_apply (image : Image) (i j : Nat) (p : RGBTRIPLE) (a b : Nat) :
    set_pixel image i j p a b = if a = i ∧ b = j then p else image a b := by
  unfold set_pixel
  by_cases ha : a = i
  · subst ha
    by_cases hb : b = j
    · subst hb; simp
    · simp [hb]
  · simp [ha]

/-- A loop over the columns of row `i` that stores at each pixel a value
computed from that pixel. -/
theorem row_loop (g : Nat → Nat → RGBTRIPLE → RGBTRIPLE) (i n : Nat) (image : Image) :
    ∀ a b, for_loop (fun j img => set_pixel img i j (g i j (img i j))) n image a b =
      if a = i ∧ b < n then g i b (image a b) else image a b := by
  induction n with
  | zero => simp [for_loop]
  | succ n ih =>
    intro a b
    rw [for_loop, set_pixel_apply]
    have hn := ih i n
    rw [if_neg (by omega)] at hn
    by_cases hab : a = i ∧ b = n
    · obtain ⟨rfl, rfl⟩ := hab
      rw [if_pos ⟨rfl, rfl⟩, if_pos ⟨rfl, by omega⟩, hn]
    · rw [if_neg hab, ih]
      by_cases hc : a = i ∧ b < n
      · rw [if_pos hc, if_pos ⟨hc.1, by omega⟩]
      · rw [if_neg hc, if_neg fun h => hab ⟨h.1, by have := hc; omega⟩]

/-- The two nested loops over all pixels, storing at each pixel a value
computed from that pixel. -/
theorem pixel_loop (g : Nat → Nat → RGBTRIPLE → RGBTRIPLE) (m n : Nat) (image : Image) :
    ∀ a b, for_loop
        (fun i img => for_loop (fun j img => set_pixel img i j (g i j (img i j))) n img)
        m image a b =
      if a < m ∧ b < n then g a b (image a b) else image a b := by
  induction m with
  | zero => simp [for_loop]
  | succ m ih =>
    intro a b
    rw [for_loop, row_loop, ih]
    by_cases ham : a = m
    · subst ham
      by_cases hb : b < n
      · rw [if_pos ⟨rfl, hb⟩, if_neg (by omega), if_pos ⟨by omega, hb⟩]
      · rw [if_neg fun h => hb h.2, if_neg (by omega), if_neg fun h => hb h.2]
    · rw [if_neg fun h => ham h.1]
      by_cases hc : a < m ∧ b < n
      · rw [if_pos hc, if_pos ⟨by omega, hc.2⟩]
      · rw [if_neg hc, if_neg fun h => hc ⟨by omega, h.2⟩]

/-! ## grayscale -/

theorem grayscale_apply (fdiv : Int → Int → Rat) (height width : Int) (image : Image)
    (a b : Nat) :
    grayscale fdiv height width image a b =
      if a < height.toNat ∧ b < width.toNat then grayscale_pixel fdiv (image a b)
      else image a b :=
  pixel_loop (fun _ _ p => grayscale_pixel fdiv p) height.toNat width.toNat image a b

theorem grayscale_pixel_eq (fdiv : Int → Int → Rat) (hacc : accurate fdiv) (p : RGBTRIPLE)
    (hr : p.rgbtRed ≤ 255) (hg : p.rgbtGreen ≤ 255) (hb : p.rgbtBlue ≤ 255) :
    ((grayscale_pixel fdiv p).rgbtRed : Int) =
        rounded_quotient (p.rgbtRed + p.rgbtGreen + p.rgbtBlue) 3 ∧
      (grayscale_pixel fdiv p).rgbtGreen = (grayscale_pixel fdiv p).rgbtRed ∧
      (grayscale_pixel fdiv p).rgbtBlue = (grayscale_pixel fdiv p).rgbtRed := by
  refine ⟨?_, rfl, rfl⟩
  show (to_byte (c_round (fdiv (p.rgbtRed + p.rgbtGreen + p.rgbtBlue) 3)) : Int) = _
  rw [c_round_fdiv fdiv hacc _ 3 (by omega) (by omega) (by decide) (by decide)]
  have := rounded_quotient_bounds ((p.rgbtRed : Int) + p.rgbtGreen + p.rgbtBlue) 3 (by decide)
    (by omega) (by omega)
  exact to_byte_of_byte _ this.1 this.2

/-- C22. For an image whose channels are bytes and a floating-point division
as accurate as `accurate` says, after `grayscale` every pixel of the image has
red = green = blue = the nearest integer to the mean `(R + G + B) / 3` of its
original channels, which is again a byte, and the pixels outside the image
are untouched; so (100,150,200) gives 150, (100,150,201) gives 150,
(100,150,202) gives 151 and (200,100,50) gives 117. -/
theorem grayscale_rounded_mean (fdiv : Int → Int → Rat) (hacc : accurate fdiv)
    (height width : Int) (image : Image) (hbytes : byte_image height width image) :
    (∀ i j, i < height.toNat → j < width.toNat →
      is_rounded_quotient ((image i j).rgbtRed + (image i j).rgbtGreen + (image i j).rgbtBlue) 3
        (grayscale fdiv height width image i j).rgbtRed ∧
      (grayscale fdiv height width image i j).rgbtGreen =
        (grayscale fdiv height width image i j).rgbtRed ∧
      (grayscale fdiv height width image i j).rgbtBlue =
        (grayscale fdiv height width image i j).rgbtRed ∧
      (grayscale fdiv height width image i j).rgbtRed ≤ 255) ∧
    (∀ i j, ¬ (i < height.toNat ∧ j < width.toNat) →
      grayscale fdiv height width image i j = image i j) ∧
    (grayscale_pixel fdiv ⟨200, 150, 100⟩ = ⟨150, 150, 150⟩ ∧
      grayscale_pixel fdiv ⟨201, 150, 100⟩ = ⟨150, 150, 150⟩ ∧
      grayscale_pixel fdiv ⟨202, 150, 100⟩ = ⟨151, 151, 151⟩ ∧
      grayscale_pixel fdiv ⟨50, 100, 200⟩ = ⟨117, 117, 117⟩) := by
  have hex : ∀ r g b a : Nat, r ≤ 255 → g ≤ 255 → b ≤ 255 →
      rounded_quotient ((r : Int) + g + b) 3 = a →
      grayscale_pixel fdiv ⟨b, g, r⟩ = ⟨a, a, a⟩ := by
    intro r g b a hr hg hb ha
    obtain ⟨h1, h2, h3⟩ := grayscale_pixel_eq fdiv hacc ⟨b, g, r⟩ hr hg hb
    simp only at h1
    rw [ha] at h1
    have h1' : (grayscale_pixel fdiv ⟨b, g, r⟩).rgbtRed = a := by exact_mod_cast h1
    cases hp : grayscale_pixel fdiv ⟨b, g, r⟩ with
    | mk pb pg pr =>
      rw [hp] at h1' h2 h3
      simp only at h1' h2 h3
      subst h1'
      subst h2
      subst h3
      rfl
  refine ⟨fun i j hi hj => ?_, fun i j hij => ?_,
    hex 100 150 200 150 (by decide) (by decide) (by decide) (by decide),
    hex 100 150 201 150 (by decide) (by decide) (by decide) (by decide),
    hex 100 150 202 151 (by decide) (by decide) (by decide) (by decide),
    hex 200 100 50 117 (by decide) (by decide) (by decide) (by decide)⟩
  · obtain ⟨hr, hg, hb⟩ := hbytes i hi j hj
    rw [grayscale_apply, if_pos ⟨hi, hj⟩]
    obtain ⟨h1, h2, h3⟩ := grayscale_pixel_eq fdiv hacc (image i j) hr hg hb
    have hb255 := rounded_quotient_bounds
      ((image i j).rgbtRed + (image i j).rgbtGreen + (image i j).rgbtBlue : Int) 3 (by decide)
      (by omega) (by omega)
    refine ⟨?_, h2, h3, by omega⟩
    rw [h1]
    exact rounded_quotient_spec _ 3 (by decide)
  · rw [grayscale_apply, if_neg hij]

theorem grayscale_rounded_mean_witness :
    accurate exact_div ∧ byte_image 2 3 example_image ∧
    ((∀ i j, i < (2 : Int).toNat → j < (3 : Int).toNat →
      is_rounded_quotient
        ((example_image i j).rgbtRed + (example_image i j).rgbtGreen +
          (example_image i j).rgbtBlue) 3
        (grayscale exact_div 2 3 example_image i j).rgbtRed ∧
      (grayscale exact_div 2 3 example_image i j).rgbtGreen =
        (grayscale exact_div 2 3 example_image i j).rgbtRed ∧
      (grayscale exact_div 2 3 example_image i j).rgbtBlue =
        (grayscale exact_div 2 3 example_image i j).rgbtRed ∧
      (grayscale exact_div 2 3 example_image i j).rgbtRed ≤ 255) ∧
    (∀ i j, ¬ (i < (2 : Int).toNat ∧ j < (3 : Int).toNat) →
      grayscale exact_div 2 3 example_image i j = example_image i j) ∧
    (grayscale_pixel exact_div ⟨200, 150, 100⟩ = ⟨150, 150, 150⟩ ∧
      grayscale_pixel exact_div ⟨201, 150, 100⟩ = ⟨150, 150, 150⟩ ∧
      grayscale_pixel exact_div ⟨202, 150, 100⟩ = ⟨151, 151, 151⟩ ∧
      grayscale_pixel exact_div ⟨50, 100, 200⟩ = ⟨117, 117, 117⟩)) :=
  ⟨accurate_exact_div, by decide,
    grayscale_rounded_mean exact_div accurate_exact_div 2 3 example_image (by decide)⟩

/-! ## reflect -/

theorem tdiv_two_toNat (w : Int) : (w.tdiv 2).toNat = w.toNat / 2 := by
  by_cases hw : 0 ≤ w
  · rw [Int.tdiv_eq_ediv hw (by decide)]
    omega
  · have h1 : w = -(-w) := by omega
    have h2 : w.tdiv 2 = -((-w) / 2) := by
      conv_lhs => rw [h1]
      rw [Int.neg_tdiv, Int.tdiv_eq_ediv (by omega) (by decide)]
    rw [h2]
    omega

theorem reflect_swap_apply (width : Int) (i j : Nat) (image : Image) (a b : Nat) :
    reflect_swap width i j image a b =
      if a = i ∧ b = (width - 1 - j).toNat then image i j
      else if a = i ∧ b = j then image i (width - 1 - j).toNat
      else image a b := by
  unfold reflect_swap
  simp only [set_pixel_apply]

/-- After `n` swaps in row `i` the first `n` and the last `n` pixels of the
row are mirrored and the rest of the image is as before. -/
theorem reflect_row (width : Int) (i n : Nat) (hn : n ≤ width.toNat / 2) (image : Image) :
    ∀ a b, for_loop (reflect_swap width i) n image a b =
      if a = i ∧ (b < n ∨ (width.toNat - n ≤ b ∧ b < width.toNat)) then
        image a (width.toNat - 1 - b)
      else image a b := by
  induction n with
  | zero =>
    intro a b
    rw [if_neg (by omega)]
    rfl
  | succ n ih =>
    intro a b
    have ih := ih (by omega)
    have hidx : (width - 1 - (n : Int)).toNat = width.toNat - 1 - n := by omega
    rw [for_loop, reflect_swap_apply, hidx]
    have hleft := ih i n
    rw [if_neg (by omega)] at hleft
    have hright := ih i (width.toNat - 1 - n)
    rw [if_neg (by omega)] at hright
    by_cases hm : a = i ∧ b = width.toNat - 1 - n
    · obtain ⟨rfl, rfl⟩ := hm
      rw [if_pos ⟨rfl, rfl⟩, if_pos ⟨rfl, by omega⟩, hleft]
      congr 1
      omega
    · rw [if_neg hm]
      by_cases hl : a = i ∧ b = n
      · obtain ⟨rfl, rfl⟩ := hl
        rw [if_pos ⟨rfl, rfl⟩, if_pos ⟨rfl, by omega⟩, hright]
      · rw [if_neg hl, ih a b]
        by_cases hc : a = i ∧ (b < n ∨ (width.toNat - n ≤ b ∧ b < width.toNat))
        · rw [if_pos hc, if_pos ⟨hc.1, by have := hc.2; omega⟩]
        · rw [if_neg hc, if_neg]
          rintro ⟨ha, hb⟩
          apply hc
          refine ⟨ha, ?_⟩
          have h1 : ¬ b = n := fun e => hl ⟨ha, e⟩
          have h2 : ¬ b = width.toNat - 1 - n := fun e => hm ⟨ha, e⟩
          omega

theorem reflect_rows (width : Int) (m n : Nat) (hn : n ≤ width.toNat / 2) (image : Image) :
    ∀ a b, for_loop (fun i img => for_loop (reflect_swap width i) n img) m image a b =
      if a < m ∧ (b < n ∨ (width.toNat - n ≤ b ∧ b < width.toNat)) then
        image a (width.toNat - 1 - b)
      else image a b := by
  induction m with
  | zero => intro a b; rw [if_neg (by omega)]; rfl
  | succ m ih =>
    intro a b
    rw [for_loop, reflect_row width m n hn]
    by_cases ham : a = m
    · subst ham
      by_cases hc : b < n ∨ (width.toNat - n ≤ b ∧ b < width.toNat)
      · rw [if_pos ⟨rfl, hc⟩, if_pos ⟨by omega, hc⟩, ih, if_neg (by omega)]
      · rw [if_neg fun h => hc h.2, if_neg fun h => hc h.2, ih, if_neg (by omega)]
    · rw [if_neg fun h => ham h.1, ih]
      by_cases hc : a < m ∧ (b < n ∨ (width.toNat - n ≤ b ∧ b < width.toNat))
      · rw [if_pos hc, if_pos ⟨by omega, hc.2⟩]
      · rw [if_neg hc, if_neg fun h => hc ⟨by omega, h.2⟩]

theorem reflect_apply (height width : Int) (image : Image) (a b : Nat) :
    reflect height width image a b =
      if a < height.toNat ∧ b < width.toNat then image a (width.toNat - 1 - b)
      else image a b := by
  unfold reflect
  rw [tdiv_two_toNat, reflect_rows width _ _ (le_refl _)]
  by_cases hc : a < height.toNat ∧ b < width.toNat
  · rw [if_pos hc]
    by_cases hd : b < width.toNat / 2 ∨ (width.toNat - width.toNat / 2 ≤ b ∧ b < width.toNat)
    · rw [if_pos ⟨hc.1, hd⟩]
    · rw [if_neg fun h => hd h.2]
      congr 1
      omega
  · rw [if_neg hc, if_neg]
    rintro ⟨ha, hb⟩
    apply hc
    exact ⟨ha, by omega⟩

/-- C23. For an image of any height and width, after `reflect` the pixel at
row `i` and column `j` of the image is the original pixel at row `i` and
column `width - 1 - j`, the pixels outside the image are untouched, the
middle column of an image of odd width is unchanged, and `reflect` applied
twice gives the original image back. -/
theorem reflect_mirrors_rows (height width : Int) (image : Image) :
    (∀ i j, i < height.toNat → j < width.toNat →
      reflect height width image i j = image i (width.toNat - 1 - j)) ∧
    (∀ i j, ¬ (i < height.toNat ∧ j < width.toNat) →
      reflect height width image i j = image i j) ∧
    (∀ i, i < height.toNat → width.toNat % 2 = 1 →
      reflect height width image i (width.toNat / 2) = image i (width.toNat / 2)) ∧
    reflect height width (reflect height width image) = image := by
  refine ⟨fun i j hi hj => ?_, fun i j hij => ?_, fun i hi hodd => ?_, ?_⟩
  · rw [reflect_apply, if_pos ⟨hi, hj⟩]
  · rw [reflect_apply, if_neg hij]
  · rw [reflect_apply, if_pos ⟨hi, by omega⟩]
    congr 1
    omega
  · funext a b
    rw [reflect_apply]
    by_cases hc : a < height.toNat ∧ b < width.toNat
    · rw [if_pos hc, reflect_apply, if_pos ⟨hc.1, by omega⟩]
      congr 1
      omega
    · rw [if_neg hc, reflect_apply, if_neg hc]

/-! ## blur -/

theorem copy_image_apply (height width : Int) (image : Image) (a b : Nat) :
    copy_image height width image a b =
      if a < height.toNat ∧ b < width.toNat then image a b else ⟨0, 0, 0⟩ :=
  pixel_loop (fun i j _ => image i j) height.toNat width.toNat (fun _ _ => ⟨0, 0, 0⟩) a b

theorem blur_apply (fdiv : Int → Int → Rat) (height width : Int) (image : Image) (a b : Nat) :
    blur fdiv height width image a b =
      if a < height.toNat ∧ b < width.toNat then
        blur_pixel fdiv height width (copy_image height width image) a b
      else image a b :=
  pixel_loop (fun i j _ => blur_pixel fdiv height width (copy_image height width image) i j)
    height.toNat width.toNat image a b

theorem blur_sums_eq_foldl (height width : Int) (temp : Image) (i j : Nat) :
    blur_sums height width temp i j =
      offsets.foldl (fun acc o => blur_neighbour height width temp i j o.1 o.2 acc)
        ⟨0, 0, 0, 0⟩ := by
  have h3 : (3 : Nat) = 0 + 1 + 1 + 1 := rfl
  unfold blur_sums offsets
  rw [h3]
  simp only [for_loop, List.foldl_cons, List.foldl_nil]
  norm_num

theorem blur_neighbour_eq (height width : Int) (temp : Image) (i j : Nat) (o : Int × Int)
    (acc : Sums) :
    blur_neighbour height width temp i j o.1 o.2 acc =
      if inside height width i j o then
        { sumRed := acc.sumRed +
            (temp ((i : Int) + o.1).toNat ((j : Int) + o.2).toNat).rgbtRed
          sumGreen := acc.sumGreen +
            (temp ((i : Int) + o.1).toNat ((j : Int) + o.2).toNat).rgbtGreen
          sumBlue := acc.sumBlue +
            (temp ((i : Int) + o.1).toNat ((j : Int) + o.2).toNat).rgbtBlue
          count := acc.count + 1 }
      else acc := by
  rfl

/-- The loops over the offsets add up the channels of the neighbours inside
the image and count them. -/
theorem foldl_blur_neighbour (height width : Int) (temp : Image) (i j : Nat)
    (l : List (Int × Int)) (acc : Sums) :
    l.foldl (fun acc o => blur_neighbour height width temp i j o.1 o.2 acc) acc =
      { sumRed := acc.sumRed + channel_sum RGBTRIPLE.rgbtRed temp
          ((l.filter (inside height width i j)).map fun o =>
            (((i : Int) + o.1).toNat, ((j : Int) + o.2).toNat))
        sumGreen := acc.sumGreen + channel_sum RGBTRIPLE.rgbtGreen temp
          ((l.filter (inside height width i j)).map fun o =>
            (((i : Int) + o.1).toNat, ((j : Int) + o.2).toNat))
        sumBlue := acc.sumBlue + channel_sum RGBTRIPLE.rgbtBlue temp
          ((l.filter (inside height width i j)).map fun o =>
            (((i : Int) + o.1).toNat, ((j : Int) + o.2).toNat))
        count := acc.count +
          (((l.filter (inside height width i j)).map fun o =>
            (((i : Int) + o.1).toNat, ((j : Int) + o.2).toNat)).length : Nat) } := by
  induction l generalizing acc with
  | nil => simp [channel_sum]
  | cons o l ih =>
    rw [List.foldl_cons, ih, blur_neighbour_eq]
    cases hin : inside height width i j o
    · simp [List.filter, hin]
    · simp [List.filter, hin, channel_sum]
      refine ⟨?_, ?_, ?_, ?_⟩ <;> ring

theorem blur_sums_eq (height width : Int) (temp : Image) (i j : Nat) :
    blur_sums height width temp i j =
      { sumRed := channel_sum RGBTRIPLE.rgbtRed temp (neighbours height width i j)
        sumGreen := channel_sum RGBTRIPLE.rgbtGreen temp (neighbours height width i j)
        sumBlue := channel_sum RGBTRIPLE.rgbtBlue temp (neighbours height width i j)
        count := ((neighbours height width i j).length : Nat) } := by
  rw [blur_sums_eq_foldl, foldl_blur_neighbour]
  simp [neighbours]

theorem mem_neighbours (height width : Int) (i j a b : Nat) :
    (a, b) ∈ neighbours height width i j ↔
      a < height.toNat ∧ b < width.toNat ∧ a ≤ i + 1 ∧ i ≤ a + 1 ∧ b ≤ j + 1 ∧ j ≤ b + 1 := by
  unfold neighbours
  simp only [List.mem_map, List.mem_filter, Prod.mk.injEq]
  constructor
  · rintro ⟨o, ⟨ho, hin⟩, h1, h2⟩
    unfold inside at hin
    simp only [Bool.and_eq_true, decide_eq_true_eq] at hin
    have hk : -1 ≤ o.1 ∧ o.1 ≤ 1 ∧ -1 ≤ o.2 ∧ o.2 ≤ 1 := by
      unfold offsets at ho
      simp only [List.mem_cons, List.mem_singleton, List.not_mem_nil, or_false] at ho
      rcases ho with h | h | h | h | h | h | h | h | h <;> rw [h] <;> decide
    omega
  · rintro ⟨ha, hb, h1, h2, h3, h4⟩
    refine ⟨((a : Int) - i, (b : Int) - j), ⟨?_, ?_⟩, by simp, by simp⟩
    · have hk : (a : Int) - i = -1 ∨ (a : Int) - i = 0 ∨ (a : Int) - i = 1 := by omega
      have hl : (b : Int) - j = -1 ∨ (b : Int) - j = 0 ∨ (b : Int) - j = 1 := by omega
      unfold offsets
      rcases hk with hk | hk | hk <;> rcases hl with hl | hl | hl <;> rw [hk, hl] <;> decide
    · unfold inside
      simp only [Bool.and_eq_true, decide_eq_true_eq]
      omega

theorem neighbours_nodup (height width : Int) (i j : Nat) :
    (neighbours height width i j).Nodup := by
  unfold neighbours
  apply List.Nodup.map_on
  · intro x hx y hy hxy
    have hx' := (List.mem_filter.mp hx).2
    have hy' := (List.mem_filter.mp hy).2
    unfold inside at hx' hy'
    simp only [Bool.and_eq_true, decide_eq_true_eq] at hx' hy'
    simp only [Prod.mk.injEq] at hxy
    apply Prod.ext <;> omega
  · apply List.Nodup.filter
    unfold offsets
    decide

theorem neighbours_length (height width : Int) (i j : Nat) (hi : i < height.toNat)
    (hj : j < width.toNat) :
    1 ≤ (neighbours height width i j).length ∧ (neighbours height width i j).length ≤ 9 := by
  constructor
  · apply List.length_pos_of_mem
    exact (mem_neighbours height width i j i j).mpr ⟨hi, hj, by omega, by omega, by omega, by omega⟩
  · unfold neighbours
    rw [List.length_map]
    exact (List.length_filter_le _ _).trans (by unfold offsets; decide)

theorem channel_sum_congr (f : RGBTRIPLE → Nat) (image temp : Image) (nb : List (Nat × Nat))
    (h : ∀ q, q ∈ nb → temp q.1 q.2 = image q.1 q.2) :
    channel_sum f temp nb = channel_sum f image nb := by
  unfold channel_sum
  congr 1
  apply List.map_congr_left
  intro q hq
  rw [h q hq]

theorem channel_sum_bounds (f : RGBTRIPLE → Nat) (image : Image) (nb : List (Nat × Nat))
    (h : ∀ q, q ∈ nb → f (image q.1 q.2) ≤ 255) :
    0 ≤ channel_sum f image nb ∧ channel_sum f image nb ≤ 255 * (nb.length : Nat) := by
  unfold channel_sum
  induction nb with
  | nil => simp
  | cons q nb ih =>
    have h1 := ih fun x hx => h x (List.mem_cons_of_mem _ hx)
    have h2 := h q (List.mem_cons_self _ _)
    simp only [List.map_cons, List.sum_cons, List.length_cons]
    push_cast
    omega

/-- The channel `blur` stores is the rounded average of that channel of the
original image over the neighbours. -/
theorem blur_channel (fdiv : Int → Int → Rat) (hacc : accurate fdiv) (height width : Int)
    (image : Image) (hbytes : byte_image height width image) (f : RGBTRIPLE → Nat)
    (hf : ∀ p : RGBTRIPLE, p.rgbtRed ≤ 255 → p.rgbtGreen ≤ 255 → p.rgbtBlue ≤ 255 → f p ≤ 255)
    (i j : Nat) (hi : i < height.toNat) (hj : j < width.toNat) :
    channel_sum f (copy_image height width image) (neighbours height width i j) =
      channel_sum f image (neighbours height width i j) ∧
    (to_byte (c_round (fdiv (channel_sum f image (neighbours height width i j))
      ((neighbours height width i j).length : Nat))) : Int) =
      rounded_quotient (channel_sum f image (neighbours height width i j))
        ((neighbours height width i j).length : Nat) ∧
    rounded_quotient (channel_sum f image (neighbours height width i j))
      ((neighbours height width i j).length : Nat) ≤ 255 := by
  have hin : ∀ q, q ∈ neighbours height width i j →
      q.1 < height.toNat ∧ q.2 < width.toNat := by
    intro q hq
    have := (mem_neighbours height width i j q.1 q.2).mp hq
    exact ⟨this.1, this.2.1⟩
  obtain ⟨hl1, hl9⟩ := neighbours_length height width i j hi hj
  obtain ⟨hs0, hs⟩ := channel_sum_bounds f image (neighbours height width i j) fun q hq => by
    obtain ⟨h1, h2, h3⟩ := hbytes q.1 (hin q hq).1 q.2 (hin q hq).2
    exact hf _ h1 h2 h3
  have hq := rounded_quotient_bounds (channel_sum f image (neighbours height width i j))
    ((neighbours height width i j).length : Nat) (by omega) hs0 hs
  refine ⟨channel_sum_congr f image _ _ fun q hq => ?_, ?_, hq.2⟩
  · rw [copy_image_apply, if_pos (hin q hq)]
  · rw [c_round_fdiv fdiv hacc _ _ hs0 (by omega) (by omega) (by omega)]
    exact to_byte_of_byte _ hq.1 hq.2

/-- C24. For an image of height and width at least 1 whose channels are bytes
and a floating-point division as accurate as `accurate` says, each channel of
each pixel `(i, j)` of the image after `blur` is the nearest integer (a
halfway case rounded up) to the average of that channel of the original image
over the positions `(i + k, j + l)`, `k` and `l` in -1, 0, 1, that lie inside
the image, each taken once; the count `blur` divides by is the number of
these positions, between 1 and 9; pixels outside the image are untouched. -/
theorem blur_rounded_average (fdiv : Int → Int → Rat) (hacc : accurate fdiv)
    (height width : Int) (_hheight : 1 ≤ height) (_hwidth : 1 ≤ width) (image : Image)
    (hbytes : byte_image height width image) :
    (∀ i j, i < height.toNat → j < width.toNat →
      (blur_sums height width (copy_image height width image) i j).count =
        ((neighbours height width i j).length : Nat) ∧
      1 ≤ (neighbours height width i j).length ∧ (neighbours height width i j).length ≤ 9 ∧
      is_rounded_quotient (channel_sum RGBTRIPLE.rgbtRed image (neighbours height width i j))
        ((neighbours height width i j).length : Nat)
        (blur fdiv height width image i j).rgbtRed ∧
      is_rounded_quotient (channel_sum RGBTRIPLE.rgbtGreen image (neighbours height width i j))
        ((neighbours height width i j).length : Nat)
        (blur fdiv height width image i j).rgbtGreen ∧
      is_rounded_quotient (channel_sum RGBTRIPLE.rgbtBlue image (neighbours height width i j))
        ((neighbours height width i j).length : Nat)
        (blur fdiv height width image i j).rgbtBlue) ∧
    (∀ i j a b, (a, b) ∈ neighbours height width i j ↔
      a < height.toNat ∧ b < width.toNat ∧ a ≤ i + 1 ∧ i ≤ a + 1 ∧ b ≤ j + 1 ∧ j ≤ b + 1) ∧
    (∀ i j, (neighbours height width i j).Nodup) ∧
    (∀ i j, ¬ (i < height.toNat ∧ j < width.toNat) →
      blur fdiv height width image i j = image i j) := by
  refine ⟨fun i j hi hj => ?_, mem_neighbours height width, neighbours_nodup height width,
    fun i j hij => by rw [blur_apply, if_neg hij]⟩
  obtain ⟨hl1, hl9⟩ := neighbours_length height width i j hi hj
  have hpos : (0 : Int) < ((neighbours height width i j).length : Nat) := by omega
  obtain ⟨r1, r2, _⟩ := blur_channel fdiv hacc height width image hbytes RGBTRIPLE.rgbtRed
    (fun _ h _ _ => h) i j hi hj
  obtain ⟨g1, g2, _⟩ := blur_channel fdiv hacc height width image hbytes RGBTRIPLE.rgbtGreen
    (fun _ _ h _ => h) i j hi hj
  obtain ⟨b1, b2, _⟩ := blur_channel fdiv hacc height width image hbytes RGBTRIPLE.rgbtBlue
    (fun _ _ _ h => h) i j hi hj
  have hsums := blur_sums_eq height width (copy_image height width image) i j
  refine ⟨by rw [hsums], hl1, hl9, ?_, ?_, ?_⟩
  · have : ((blur fdiv height width image i j).rgbtRed : Int) =
        rounded_quotient (channel_sum RGBTRIPLE.rgbtRed image (neighbours height width i j))
          ((neighbours height width i j).length : Nat) := by
      rw [blur_apply, if_pos ⟨hi, hj⟩]
      show (to_byte (c_round (fdiv
        (blur_sums height width (copy_image height width image) i j).sumRed
        (blur_sums height width (copy_image height width image) i j).count)) : Int) = _
      rw [hsums]
      simp only
      rw [r1, r2]
    rw [this]
    exact rounded_quotient_spec _ _ hpos
  · have : ((blur fdiv height width image i j).rgbtGreen : Int) =
        rounded_quotient (channel_sum RGBTRIPLE.rgbtGreen image (neighbours height width i j))
          ((neighbours height width i j).length : Nat) := by
      rw [blur_apply, if_pos ⟨hi, hj⟩]
      show (to_byte (c_round (fdiv
        (blur_sums height width (copy_image height width image) i j).sumGreen
        (blur_sums height width (copy_image height width image) i j).count)) : Int) = _
      rw [hsums]
      simp only
      rw [g1, g2]
    rw [this]
    exact rounded_quotient_spec _ _ hpos
  · have : ((blur fdiv height width image i j).rgbtBlue : Int) =
        rounded_quotient (channel_sum RGBTRIPLE.rgbtBlue image (neighbours height width i j))
          ((neighbours height width i j).length : Nat) := by
      rw [blur_apply, if_pos ⟨hi, hj⟩]
      show (to_byte (c_round (fdiv
        (blur_sums height width (copy_image height width image) i j).sumBlue
        (blur_sums height width (copy_image height width image) i j).count)) : Int) = _
      rw [hsums]
      simp only
      rw [b1, b2]
    rw [this]
    exact rounded_quotient_spec _ _ hpos

theorem blur_rounded_average_witness :
    accurate exact_div ∧ (1 : Int) ≤ 2 ∧ (1 : Int) ≤ 3 ∧ byte_image 2 3 example_image ∧
    ((∀ i j, i < (2 : Int).toNat → j < (3 : Int).toNat →
      (blur_sums 2 3 (copy_image 2 3 example_image) i j).count =
        ((neighbours 2 3 i j).length : Nat) ∧
      1 ≤ (neighbours 2 3 i j).length ∧ (neighbours 2 3 i j).length ≤ 9 ∧
      is_rounded_quotient (channel_sum RGBTRIPLE.rgbtRed example_image (neighbours 2 3 i j))
        ((neighbours 2 3 i j).length : Nat) (blur exact_div 2 3 example_image i j).rgbtRed ∧
      is_rounded_quotient (channel_sum RGBTRIPLE.rgbtGreen example_image (neighbours 2 3 i j))
        ((neighbours 2 3 i j).length : Nat) (blur exact_div 2 3 example_image i j).rgbtGreen ∧
      is_rounded_quotient (channel_sum RGBTRIPLE.rgbtBlue example_image (neighbours 2 3 i j))
        ((neighbours 2 3 i j).length : Nat) (blur exact_div 2 3 example_image i j).rgbtBlue) ∧
    (∀ i j a b, (a, b) ∈ neighbours 2 3 i j ↔
      a < (2 : Int).toNat ∧ b < (3 : Int).toNat ∧ a ≤ i + 1 ∧ i ≤ a + 1 ∧ b ≤ j + 1 ∧
        j ≤ b + 1) ∧
    (∀ i j, (neighbours 2 3 i j).Nodup) ∧
    (∀ i j, ¬ (i < (2 : Int).toNat ∧ j < (3 : Int).toNat) →
      blur exact_div 2 3 example_image i j = example_image i j)) :=
  ⟨accurate_exact_div, by decide, by decide, by decide,
    blur_rounded_average exact_div accurate_exact_div 2 3 (by decide) (by decide) example_image
      (by decide)⟩

end Filter
